import Mathlib

/-!
# Verification of the `whats-this-id` extraction / reconciliation engine

A shallow embedding of the core parsing code of the repository
(`whats_this_id/core/parsers/{timing_utils,text_cleaners,track_extractors,parser}.py`)
together with proofs/refutations of the specification claims.

Durations (`datetime.timedelta` in the source) are modelled as integers counting
microseconds, the resolution of `timedelta`.  Fallible Python code (raising
`ValueError` / `IndexError`) is modelled in the `Except String` monad.
-/

deriving instance DecidableEq for Except

namespace WTI

/-! ## Character and digit utilities -/

def isDigitC (c : Char) : Bool := '0' ≤ c && c ≤ '9'

def digitVal (c : Char) : Nat := c.toNat - '0'.toNat

def digitChar : Nat → Char
  | 0 => '0' | 1 => '1' | 2 => '2' | 3 => '3' | 4 => '4'
  | 5 => '5' | 6 => '6' | 7 => '7' | 8 => '8' | _ => '9'

/-- Digits of a decimal numeral, most significant first.  The fuel argument
(always at least `n + 1` at call sites) makes the recursion structural. -/
def natToCharsAux : Nat → Nat → List Char
  | 0, _ => []
  | fuel + 1, n =>
    if n < 10 then [digitChar n]
    else natToCharsAux fuel (n / 10) ++ [digitChar (n % 10)]

def natToChars (n : Nat) : List Char := natToCharsAux (n + 1) n

/-- Value of a digit string (no sign), `none` if empty or not all digits;
models `int()` applied to a plain digit string. -/
def parseNatChars (l : List Char) : Option Nat :=
  if l ≠ [] ∧ l.all isDigitC then
    some (l.foldl (fun a c => 10 * a + digitVal c) 0)
  else none

/-- Model of Python `int(x)` on the strings this pipeline produces:
an optional minus sign followed by one or more decimal digits. -/
def parseIntAtom (l : List Char) : Option Int :=
  if l.head? = some '-' then (parseNatChars l.tail).map (fun n => -(Int.ofNat n))
  else (parseNatChars l).map Int.ofNat

/-- `str.split(sep)` for a one-character separator: `"".split(":") == [""]`,
and the result list is never empty. -/
def splitCh (sep : Char) : List Char → List (List Char)
  | [] => [[]]
  | c :: rest =>
    if c = sep then [] :: splitCh sep rest
    else
      match splitCh sep rest with
      | [] => [[c]]
      | h :: t => (c :: h) :: t

/-- Zero-pad a numeral to width two: the `f"{h:02d}"` padding. -/
def padZero2 (l : List Char) : List Char := if l.length < 2 then '0' :: l else l

/-- `f"{i:02d}"`: for a negative value the sign plus at least one digit already
fill the field width of two, so no padding is inserted. -/
def intPad2 (i : Int) : List Char :=
  if i < 0 then '-' :: natToChars i.natAbs
  else padZero2 (natToChars i.toNat)

/-! ## `TimingUtils.parse_time` / `TimingUtils.format_time` -/

def parsePartsInts : List (List Char) → Except String (List Int)
  | [] => .ok []
  | p :: ps =>
    match parseIntAtom p with
    | none => .error ("invalid literal for int() with base 10: " ++ String.mk p)
    | some v =>
      match parsePartsInts ps with
      | .error e => .error e
      | .ok vs => .ok (v :: vs)

/-- The body of `parse_time` after the truncation at the first `'.'`:
`parts = [int(x) for x in t.split(":")]` followed by the length dispatch.
`timedelta(minutes=m, seconds=s)` and `timedelta(hours=h, minutes=m, seconds=s)`
in microseconds. -/
def parseTimeParts (t' : List Char) : Except String Int :=
  match parsePartsInts (splitCh ':' t') with
  | .error e => .error e
  | .ok [m, s] => .ok ((m * 60 + s) * 1000000)
  | .ok [h, m, s] => .ok ((h * 3600 + m * 60 + s) * 1000000)
  | .ok _ => .error ("Invalid time format: " ++ String.mk t')

def parseTimeAux (t : List Char) : Except String Int :=
  if t = [] then .error "Empty time string"
  else parseTimeParts ((splitCh '.' t).headD [])

/-- `TimingUtils.parse_time`: `'H:MM:SS'` or `'MM:SS'` to a duration
(microseconds).  Fractional seconds are removed by truncating at the first
`'.'`; empty input and any shape other than two or three `int()`-parseable
colon-separated components raise `ValueError`. -/
def parse_time (t : String) : Except String Int := parseTimeAux t.data

/-- `parse_time` applied to an optional string field; Python's
`if not t: raise ValueError("Empty time string")` also catches `None`. -/
def parseTimeOpt : Option String → Except String Int
  | none => .error "Empty time string"
  | some s => parse_time s

/-- `TimingUtils.format_time`: duration to `'HH:MM:SS'`.
`int(td.total_seconds())` truncates toward zero (`Int.tdiv`); Python's `divmod`
is floor division (`Int.fdiv` / `Int.fmod`). -/
def format_time (td : Int) : String :=
  let total_seconds := Int.tdiv td 1000000
  let h := Int.fdiv total_seconds 3600
  let remainder := Int.fmod total_seconds 3600
  let m := Int.fdiv remainder 60
  let s := Int.fmod remainder 60
  String.mk (intPad2 h ++ ':' :: intPad2 m ++ ':' :: intPad2 s)

/-! ## The track record

`DomainTrack` (from the external `dj_set_downloader` package) restricted to the
fields the parsers read or write.  `start_time` / `end_time` are the textual
durations (`None` when unknown). -/

structure DomainTrack where
  name : String
  artist : String
  start_time : Option String := none
  end_time : Option String := none
  track_number : Option Int := none
deriving DecidableEq, Repr

/-- Python truthiness of an optional time string: `None` and `""` are falsy. -/
def optTruthy : Option String → Bool
  | none => false
  | some s => s ≠ ""

/-! ## `TimingUtils.apply_timing_rules` and its helpers -/

/-- Stable insertion of a keyed element: placed after existing equal keys,
as CPython's stable `sorted` does. -/
def insertKeyed (x : Int × DomainTrack) : List (Int × DomainTrack) → List (Int × DomainTrack)
  | [] => [x]
  | y :: ys => if x.1 < y.1 then x :: y :: ys else y :: insertKeyed x ys

def insertionSortKeyed : List (Int × DomainTrack) → List (Int × DomainTrack)
  | [] => []
  | x :: xs => insertKeyed x (insertionSortKeyed xs)

/-- `sorted(tracks, key=lambda t: self.parse_time(t.start_time))`: the key is
computed once per element in input order (raising on the first unparseable
`start_time`), then a stable sort is applied. -/
def sortByStart (tracks : List DomainTrack) : Except String (List DomainTrack) :=
  match keyed tracks with
  | .error e => .error e
  | .ok ks => .ok ((insertionSortKeyed ks).map Prod.snd)
where
  keyed : List DomainTrack → Except String (List (Int × DomainTrack))
    | [] => .ok []
    | t :: rest =>
      match parseTimeOpt t.start_time with
      | .error e => .error e
      | .ok k =>
        match keyed rest with
        | .error e => .error e
        | .ok ks => .ok ((k, t) :: ks)

/-- Python whitespace: the characters matched by `str.isspace` and by the
regex class `\s` on `str` patterns. -/
def isPyWS (c : Char) : Bool :=
  c = ' ' || c = '\t' || c = '\n' || c = '\x0d' || c = '\x0b' || c = '\x0c' ||
  c = '\x1c' || c = '\x1d' || c = '\x1e' || c = '\x1f' || c = '\x85' || c = '\xa0' ||
  c = '\u1680' || ('\u2000' ≤ c && c ≤ '\u200a') || c = '\u2028' || c = '\u2029' ||
  c = '\u202f' || c = '\u205f' || c = '\u3000'

/-- `str.strip()`. -/
def pyStrip (l : List Char) : List Char :=
  ((l.dropWhile isPyWS).reverse.dropWhile isPyWS).reverse

def pyStripStr (s : String) : String := String.mk (pyStrip s.data)

/-- `str.lower()` (ASCII part). -/
def pyLower (s : String) : String := String.mk (s.data.map Char.toLower)

/-- The deduplication key: `(track.artist.lower().strip(), track.name.lower().strip())`. -/
def trackKey (t : DomainTrack) : String × String :=
  (pyStripStr (pyLower t.artist), pyStripStr (pyLower t.name))

/-- Merge a duplicate `track` into the `existing` entry with the same key
(`timing_utils.py` lines 116-131): ranges are united, a missing `end_time`
counting as `end = start`. -/
def mergeDup (existing track : DomainTrack) : Except String DomainTrack :=
  match parseTimeOpt existing.start_time with
  | .error e => .error e
  | .ok existing_start =>
    match (if optTruthy existing.end_time then parseTimeOpt existing.end_time
           else .ok existing_start) with
    | .error e => .error e
    | .ok existing_end =>
      match parseTimeOpt track.start_time with
      | .error e => .error e
      | .ok current_start =>
        match (if optTruthy track.end_time then parseTimeOpt track.end_time
               else .ok current_start) with
        | .error e => .error e
        | .ok current_end =>
          .ok { existing with
                start_time := some (format_time (min existing_start current_start)),
                end_time := some (format_time (max existing_end current_end)) }

/-- Replace the (unique) entry of `acc` having `track`'s key by the merge of
the two; models the in-place mutation of `seen[key]`. -/
def mergeIntoAcc (track : DomainTrack) : List DomainTrack → Except String (List DomainTrack)
  | [] => .ok []
  | x :: xs =>
    if trackKey x = trackKey track then
      match mergeDup x track with
      | .error e => .error e
      | .ok merged => .ok (merged :: xs)
    else
      match mergeIntoAcc track xs with
      | .error e => .error e
      | .ok xs' => .ok (x :: xs')

def dedupGo : List DomainTrack → List DomainTrack → Except String (List DomainTrack)
  | [], acc => .ok acc
  | t :: rest, acc =>
    if acc.any (fun x => trackKey x = trackKey t) then
      match mergeIntoAcc t acc with
      | .error e => .error e
      | .ok acc' => dedupGo rest acc'
    else dedupGo rest (acc ++ [t])

/-- `TimingUtils._deduplicate_tracks`: first occurrence of each
`(artist, name)` key survives in order; later duplicates are merged into it. -/
def _deduplicate_tracks (tracks : List DomainTrack) : Except String (List DomainTrack) :=
  dedupGo tracks []

/-- `TimingUtils._add_intro_track`.  On an empty list the Python code reaches
`tracks[0]` and raises `IndexError`; `apply_timing_rules` never calls it with
an empty list. -/
def _add_intro_track (tracks : List DomainTrack) (threshold : Int) :
    Except String (List DomainTrack) :=
  match tracks with
  | [] => .error "list index out of range"
  | first :: rest =>
    match parseTimeOpt first.start_time with
    | .error e => .error e
    | .ok st =>
      if st < threshold then
        .ok ({ first with start_time := some (format_time 0) } :: rest)
      else
        .ok ({ name := "ID", artist := "ID",
               start_time := some (format_time 0),
               end_time := first.start_time } :: first :: rest)

/-- Overwrite the `end_time` of the last element (mutation of `tracks[-1]`). -/
def setLastEnd (v : Option String) : List DomainTrack → List DomainTrack
  | [] => []
  | [t] => [{ t with end_time := v }]
  | t :: rest => t :: setLastEnd v rest

/-- `TimingUtils._add_outro_track`. -/
def _add_outro_track (tracks : List DomainTrack) (total_duration : Int)
    (threshold : Int) : Except String (List DomainTrack) :=
  match tracks.getLast? with
  | none => .ok tracks
  | some last =>
    if ¬ optTruthy last.end_time then
      .ok (setLastEnd (some (format_time total_duration)) tracks)
    else
      match parseTimeOpt last.end_time with
      | .error e => .error e
      | .ok last_end =>
        if last_end ≥ total_duration then .ok tracks
        else if last_end + threshold ≥ total_duration then
          .ok (setLastEnd (some (format_time total_duration)) tracks)
        else
          .ok (tracks ++ [{ name := "ID", artist := "ID",
                            start_time := some (format_time last_end),
                            end_time := some (format_time total_duration) }])

/-- `if not track.end_time and i < len(tracks) - 1: track.end_time = tracks[i+1].start_time`. -/
def fillEnd (t next : DomainTrack) : DomainTrack :=
  if optTruthy t.end_time then t else { t with end_time := next.start_time }

/-- The synthetic ID track inserted into a long gap. -/
def mkGapId (e next_start : Int) : DomainTrack :=
  { name := "ID", artist := "ID",
    start_time := some (format_time e),
    end_time := some (format_time next_start),
    track_number := none }

/-- One step of the `TimingUtils._process_gaps` loop: `t` is the current track
(already carrying any midpoint adjustment from the previous step), the list
argument holds the tracks still to visit.  Gap values are whole seconds, so
`gap / 2` (`timedelta` true division) is the exact integer `Int.tdiv gap 2`. -/
def processGapsGo (min_gap : Int) (t : DomainTrack) :
    List DomainTrack → Except String (List DomainTrack)
  | [] => .ok [t]
  | next :: rest =>
    match parseTimeOpt (fillEnd t next).start_time with
    | .error e => .error e
    | .ok start =>
      match (if optTruthy (fillEnd t next).end_time
             then parseTimeOpt (fillEnd t next).end_time else .ok start) with
      | .error e => .error e
      | .ok e =>
        match parseTimeOpt next.start_time with
        | .error err => .error err
        | .ok next_start =>
          if next_start - e < 0 then
            -- Overlap detected: boundaries left untouched.
            match processGapsGo min_gap next rest with
            | .error err => .error err
            | .ok out => .ok (fillEnd t next :: out)
          else if next_start - e > min_gap then
            match processGapsGo min_gap next rest with
            | .error err => .error err
            | .ok out => .ok (fillEnd t next :: mkGapId e next_start :: out)
          else if next_start - e > 0 then
            match processGapsGo min_gap
                { next with start_time := some (format_time (e + Int.tdiv (next_start - e) 2)) }
                rest with
            | .error err => .error err
            | .ok out =>
              .ok ({ fillEnd t next with
                     end_time := some (format_time (e + Int.tdiv (next_start - e) 2)) } :: out)
          else
            match processGapsGo min_gap next rest with
            | .error err => .error err
            | .ok out => .ok (fillEnd t next :: out)

/-- `TimingUtils._process_gaps`. -/
def _process_gaps (tracks : List DomainTrack) (min_gap : Int) :
    Except String (List DomainTrack) :=
  match tracks with
  | [] => .ok []
  | t :: rest => processGapsGo min_gap t rest

/-- `for i, track in enumerate(tracks, start=1): track.track_number = i`. -/
def renumberFrom (n : Int) : List DomainTrack → List DomainTrack
  | [] => []
  | t :: rest => { t with track_number := some n } :: renumberFrom (n + 1) rest

/-- Final pass of `apply_timing_rules`: round-trip every (truthy) time string
through `parse_time` / `format_time`. -/
def normalizeTrack (t : DomainTrack) : Except String DomainTrack :=
  match (if optTruthy t.start_time then
           match parseTimeOpt t.start_time with
           | .error e => .error e
           | .ok v => .ok { t with start_time := some (format_time v) }
         else .ok t : Except String DomainTrack) with
  | .error e => .error e
  | .ok t' =>
    if optTruthy t'.end_time then
      match parseTimeOpt t'.end_time with
      | .error e => .error e
      | .ok v => .ok { t' with end_time := some (format_time v) }
    else .ok t'

def normalizeTimes : List DomainTrack → Except String (List DomainTrack)
  | [] => .ok []
  | t :: rest =>
    match normalizeTrack t with
    | .error e => .error e
    | .ok t' =>
      match normalizeTimes rest with
      | .error e => .error e
      | .ok rest' => .ok (t' :: rest')

/-- `TimingUtils.apply_timing_rules`: sort, deduplicate, intro, gaps, outro,
renumber, normalise. -/
def apply_timing_rules (tracks : List DomainTrack) (total_duration : Int)
    (intro_outro_threshold : Int := 30 * 1000000)
    (min_gap_threshold : Int := 60 * 1000000) : Except String (List DomainTrack) :=
  if tracks = [] then .ok tracks
  else
    match sortByStart tracks with
    | .error e => .error e
    | .ok ts1 =>
      match _deduplicate_tracks ts1 with
      | .error e => .error e
      | .ok ts2 =>
        match _add_intro_track ts2 intro_outro_threshold with
        | .error e => .error e
        | .ok ts3 =>
          match _process_gaps ts3 min_gap_threshold with
          | .error e => .error e
          | .ok ts4 =>
            match _add_outro_track ts4 total_duration intro_outro_threshold with
            | .error e => .error e
            | .ok ts5 => normalizeTimes (renumberFrom 1 ts5)

/-- Adjacent-pair relation of the post-reconciliation invariant: the
predecessor's end and the successor's start are both present and parse, and
the successor starts no later than the predecessor ends — i.e. the boundary
is shared exactly, or the pair is an overlap that was left untouched. -/
def timesLE (a b : DomainTrack) : Prop :=
  ∃ e s de ds, a.end_time = some e ∧ b.start_time = some s ∧
    parse_time e = .ok de ∧ parse_time s = .ok ds ∧ ds ≤ de

/-- The canonical zero-padded rendering `pad2(H):pad2(M):pad2(S)`. -/
def canonicalHMS (H M S : Nat) : String :=
  String.mk (padZero2 (natToChars H) ++
    ':' :: (padZero2 (natToChars M) ++ ':' :: padZero2 (natToChars S)))

/-- The acceptance condition of `parse_time` (claim C4): non-empty input and,
after truncating at the first `'.'`, exactly two or three colon-separated
components each accepted by `int()`. -/
def timeShapeOk (s : String) : Prop :=
  s ≠ "" ∧
  ((splitCh ':' ((splitCh '.' s.data).headD [])).length = 2 ∨
   (splitCh ':' ((splitCh '.' s.data).headD [])).length = 3) ∧
  ∀ p ∈ splitCh ':' ((splitCh '.' s.data).headD []), (parseIntAtom p).isSome

/-- The two field mutations `existing.start_time = format_time(merged_start)`;
`existing.end_time = format_time(merged_end)`. -/
def withRange (t : DomainTrack) (a b : Int) : DomainTrack :=
  { t with start_time := some (format_time a), end_time := some (format_time b) }

/-! ## The cleanup regexes of `text_cleaners.py` / `parser.py`

The `CLEANUP_PATTERNS` regexes are sequences of character-class atoms:
single characters and counted repetitions (`+`, `*`, `{4,}`, and the lazy
`.*?`), ending in `$`.  `matchRE` enumerates, in greedy (longest-first)
order, the possible remainders after matching a pattern at the head of the
input.  Because every pattern here is anchored by `$` — which matches only at
the end of the string or just before a final newline — a successful match has
a forced remainder (`[]`, or `['\n']` when the final newline is left over),
so the greedy/lazy distinction does not affect what `re.sub` removes. -/

inductive RAtom where
  | chr (p : Char → Bool)
  | rep (p : Char → Bool) (min : Nat)

/-- Length of the longest prefix of `l` whose characters satisfy `p`. -/
def leadCount (p : Char → Bool) : List Char → Nat
  | [] => 0
  | c :: rest => if p c then leadCount p rest + 1 else 0

/-- Remainders after `p{min,}` consumes a prefix, longest first. -/
def repOptions (p : Char → Bool) (min : Nat) (l : List Char) : List (List Char) :=
  if min ≤ leadCount p l then
    (List.range (leadCount p l - min + 1)).map (fun i => l.drop (leadCount p l - i))
  else []

/-- Remainders after matching the atom sequence (implicitly followed by `$`)
at the head of `l`, in backtracking order. -/
def matchRE : List RAtom → List Char → List (List Char)
  | [], l => if l = [] ∨ l = ['\n'] then [l] else []
  | .chr p :: re, l =>
    match l with
    | [] => []
    | c :: rest => if p c then matchRE re rest else []
  | .rep p min :: re, l => (repOptions p min l).flatMap (fun r => matchRE re r)

/-- `pattern.sub("", s)` for an `$`-anchored pattern: scan left to right and
replace each (leftmost) match with the empty string, continuing on the
remainder.  Every pattern used here consumes at least one character, so the
fuel `l.length` always suffices and the guarded else-branch is never taken. -/
def reSubFuel (m : List Char → List (List Char)) : Nat → List Char → List Char
  | _, [] => []
  | 0, l => l
  | fuel + 1, c :: rest =>
    match (m (c :: rest)).head? with
    | none => c :: reSubFuel m fuel rest
    | some r =>
      if r.length < (c :: rest).length then reSubFuel m fuel r
      else c :: reSubFuel m fuel rest

def reSub (m : List Char → List (List Char)) (l : List Char) : List Char :=
  reSubFuel m l.length l

def isUpperC (c : Char) : Bool := 'A' ≤ c && c ≤ 'Z'

def isLowerC (c : Char) : Bool := 'a' ≤ c && c ≤ 'z'

/-- `.` (any character but a newline). -/
def dotC (c : Char) : Bool := c ≠ '\n'

/-- The class `[a-zA-Z0-9()\s]` of the `user_info` pattern. -/
def isUserInfoC (c : Char) : Bool :=
  isLowerC c || isUpperC c || isDigitC c || c = '(' || c = ')' || isPyWS c

/-- `label_and_numbers`: `\s+[A-Z\s]{4,}\s+\d+.*$`. -/
def label_and_numbers : List RAtom :=
  [.rep isPyWS 1, .rep (fun c => isUpperC c || isPyWS c) 4, .rep isPyWS 1,
   .rep isDigitC 1, .rep dotC 0]

/-- `edit_info`: `\s+[A-Z]+\s+\[.*?\].*$`. -/
def edit_info : List RAtom :=
  [.rep isPyWS 1, .rep isUpperC 1, .rep isPyWS 1, .chr (fun c => c = '['),
   .rep dotC 0, .chr (fun c => c = ']'), .rep dotC 0]

/-- `user_info`: `\s+\d+\s+[a-zA-Z0-9()\s]+\s+Save.*$`. -/
def user_info : List RAtom :=
  [.rep isPyWS 1, .rep isDigitC 1, .rep isPyWS 1, .rep isUserInfoC 1, .rep isPyWS 1,
   .chr (fun c => c = 'S'), .chr (fun c => c = 'a'), .chr (fun c => c = 'v'),
   .chr (fun c => c = 'e'), .rep dotC 0]

/-- `brackets`: `\s*\[.*?\]\s*$` (used by `parser.py`'s cleaner only). -/
def bracketsPat : List RAtom :=
  [.rep isPyWS 0, .chr (fun c => c = '['), .rep dotC 0, .chr (fun c => c = ']'),
   .rep isPyWS 0]

/-- `parentheses`: `\s*\(.*?\)\s*$` (used by `parser.py`'s cleaner only). -/
def parenthesesPat : List RAtom :=
  [.rep isPyWS 0, .chr (fun c => c = '('), .rep dotC 0, .chr (fun c => c = ')'),
   .rep isPyWS 0]

/-- `TextCleaner.clean_track_name` (`text_cleaners.py`): `label_and_numbers`,
`edit_info`, `user_info` in order, then `strip()`; the `brackets` and
`parentheses` patterns are commented out in this variant. -/
def clean_track_name (track_part : String) : String :=
  String.mk (pyStrip (reSub (matchRE user_info)
    (reSub (matchRE edit_info)
      (reSub (matchRE label_and_numbers) track_part.data))))

/-- `^\d+\s+` (`track_number`), anchored: strip the matched prefix, if any.
All backtracking is degenerate since shortening a maximal run only re-exposes
a character of the same class. -/
def stripTrackNumber (l : List Char) : List Char :=
  let d := leadCount isDigitC l
  if d = 0 then l
  else
    let w := leadCount isPyWS (l.drop d)
    if w = 0 then l else (l.drop d).drop w

/-- `^\d+\s+\d+:\d+(?::\d+)?\s+` (`track_number_time`), anchored. -/
def stripTrackNumberTime (l : List Char) : List Char :=
  let d1 := leadCount isDigitC l
  if d1 = 0 then l
  else
    let l1 := l.drop d1
    let w1 := leadCount isPyWS l1
    if w1 = 0 then l
    else
      let l2 := l1.drop w1
      let d2 := leadCount isDigitC l2
      if d2 = 0 then l
      else
        match (l2.drop d2).head? with
        | some ':' =>
          let l3 := (l2.drop d2).drop 1
          let d3 := leadCount isDigitC l3
          if d3 = 0 then l
          else
            match (l3.drop d3).head? with
            | some ':' =>
              let l4 := (l3.drop d3).drop 1
              let d4 := leadCount isDigitC l4
              let w4 := leadCount isPyWS (l4.drop d4)
              if d4 ≠ 0 ∧ w4 ≠ 0 then (l4.drop d4).drop w4 else l
            | _ =>
              let w3 := leadCount isPyWS (l3.drop d3)
              if w3 = 0 then l else (l3.drop d3).drop w3
        | _ => l

/-- `^\d+:\d+(?::\d+)?\s*` (`timestamp_prefix`), anchored.  The trailing
`\s*` cannot fail, so when the optional third component is absent the match
still succeeds after the second component. -/
def stripTimestampPre (l : List Char) : List Char :=
  let d1 := leadCount isDigitC l
  if d1 = 0 then l
  else
    match (l.drop d1).head? with
    | some ':' =>
      let l2 := (l.drop d1).drop 1
      let d2 := leadCount isDigitC l2
      if d2 = 0 then l
      else
        match (l2.drop d2).head? with
        | some ':' =>
          let l3 := (l2.drop d2).drop 1
          let d3 := leadCount isDigitC l3
          if d3 = 0 then (l2.drop d2).drop (leadCount isPyWS (l2.drop d2))
          else (l3.drop d3).drop (leadCount isPyWS (l3.drop d3))
        | _ => (l2.drop d2).drop (leadCount isPyWS (l2.drop d2))
    | _ => l

/-- `TextCleaner.clean_artist_name`: `track_number_time`, `track_number`,
`timestamp_prefix` in order, then `strip()`. -/
def clean_artist_name (artist_part : String) : String :=
  String.mk (pyStrip (stripTimestampPre (stripTrackNumber
    (stripTrackNumberTime artist_part.data))))

/-- `Parser._clean_track_name` (`parser.py`): this variant also applies the
`brackets` and `parentheses` patterns, between `label_and_numbers` and
`edit_info`. -/
def parser_clean_track_name (track_part : String) : String :=
  String.mk (pyStrip (reSub (matchRE user_info)
    (reSub (matchRE edit_info)
      (reSub (matchRE parenthesesPat)
        (reSub (matchRE bracketsPat)
          (reSub (matchRE label_and_numbers) track_part.data))))))

/-- `Parser._clean_artist_name` (`parser.py`): identical to
`TextCleaner.clean_artist_name`. -/
def parser_clean_artist_name (artist_part : String) : String :=
  clean_artist_name artist_part

/-! ## Track extraction from text (`track_extractors.py` / `parser.py`) -/

/-- `sep in l` / `l.split(sep, 1)`: locate the first occurrence of `sep`. -/
def splitOnce (sep : List Char) : List Char → Option (List Char × List Char)
  | [] => none
  | c :: rest =>
    if sep.isPrefixOf (c :: rest) then some ([], (c :: rest).drop sep.length)
    else
      match splitOnce sep rest with
      | none => none
      | some (pre, post) => some (c :: pre, post)

def containsSub (sep l : List Char) : Bool := (splitOnce sep l).isSome

def SKIP_WORDS : List String :=
  ["copyright", "rights", "reserved", "tracklist", "playlist"]

/-- `TextCleaner.should_skip_text`: case-insensitive skip-word test. -/
def should_skip_text (text : String) : Bool :=
  SKIP_WORDS.any (fun w => containsSub w.data (pyLower text).data)

/-- `TrackExtractors._create_domain_track`: cleans both fields (again). -/
def _create_domain_track (track artist : String)
    (track_number : Option Int := none) (start_time : Option String := none) :
    DomainTrack :=
  { name := clean_track_name track, artist := clean_artist_name artist,
    start_time := start_time, end_time := none, track_number := track_number }

/-- `TrackExtractors._parse_artist_track_text`: split on the first `" - "`
(or `" by "`), clean both parts, and emit — with no length check. -/
def _parse_artist_track_text (text : List Char) : Option DomainTrack :=
  match splitOnce " - ".data text with
  | some (p0, p1) =>
    some (_create_domain_track
      (clean_track_name (String.mk (pyStrip p1)))
      (clean_artist_name (String.mk (pyStrip p0))))
  | none =>
    match splitOnce " by ".data text with
    | some (p0, p1) =>
      some (_create_domain_track
        (clean_track_name (String.mk (pyStrip p0)))
        (clean_artist_name (String.mk (pyStrip p1))))
    | none => none

/-- `TrackExtractors._extract_track_info_from_text`. -/
def _extract_track_info_from_text (text : List Char) : Option DomainTrack :=
  if text.length < 5 then none
  else if should_skip_text (String.mk text) then none
  else _parse_artist_track_text text

/-- `TrackExtractors.extract_from_text_patterns`, at the text level: the
document's plain text is split into stripped lines; lines containing
`" - "` with length strictly between 10 and 200 are parsed independently
(`None` results included, as in the source). -/
def extract_from_text_patterns (all_text : String) : List (Option DomainTrack) :=
  (((splitCh '\n' all_text.data).map pyStrip).filter
      (fun line => containsSub " - ".data line && 10 < line.length && line.length < 200)).map
    _extract_track_info_from_text

/-- `Parser._create_domain_track` (`parser.py` cleaner variants). -/
def parser_create_domain_track (track artist : String)
    (track_number : Option Int := none) (start_time : Option String := none) :
    DomainTrack :=
  { name := parser_clean_track_name track, artist := parser_clean_artist_name artist,
    start_time := start_time, end_time := none, track_number := track_number }

/-- `Parser._parse_artist_track_text` (`parser.py`). -/
def parser_parse_artist_track_text (text : List Char) : Option DomainTrack :=
  match splitOnce " - ".data text with
  | some (p0, p1) =>
    some (parser_create_domain_track
      (parser_clean_track_name (String.mk (pyStrip p1)))
      (parser_clean_artist_name (String.mk (pyStrip p0))))
  | none =>
    match splitOnce " by ".data text with
    | some (p0, p1) =>
      some (parser_create_domain_track
        (parser_clean_track_name (String.mk (pyStrip p0)))
        (parser_clean_artist_name (String.mk (pyStrip p1))))
    | none => none

/-- `Parser._extract_track_info_from_text`. -/
def parser_extract_track_info_from_text (text : List Char) : Option DomainTrack :=
  if text.length < 5 then none
  else if should_skip_text (String.mk text) then none
  else parser_parse_artist_track_text text

/-- `Parser._extract_from_text_patterns`. -/
def parser_extract_from_text_patterns (all_text : String) : List (Option DomainTrack) :=
  (((splitCh '\n' all_text.data).map pyStrip).filter
      (fun line => containsSub " - ".data line && 10 < line.length && line.length < 200)).map
    parser_extract_track_info_from_text

/-- The time portion `(\d+:\d+(?::\d+)?)\s+` of the anchored time regex of
`Parser._extract_track_number_and_time`; `l` starts right after `^\s*\d+\s+`.
Shrinking a maximal digit run only re-exposes a digit, so the regex engine's
backtracking is deterministic here. -/
def matchTimeThenWS (l : List Char) : Option String :=
  let a := leadCount isDigitC l
  if a = 0 then none
  else
    match (l.drop a).head? with
    | some ':' =>
      let l2 := (l.drop a).drop 1
      let b := leadCount isDigitC l2
      if b = 0 then none
      else
        match (l2.drop b).head? with
        | some ':' =>
          let l4 := (l2.drop b).drop 1
          let c := leadCount isDigitC l4
          if c ≠ 0 ∧ leadCount isPyWS (l4.drop c) ≠ 0 then
            some (String.mk (l.take a ++ ':' :: l2.take b ++ ':' :: l4.take c))
          else none
        | _ =>
          if leadCount isPyWS (l2.drop b) ≠ 0 then
            some (String.mk (l.take a ++ ':' :: l2.take b))
          else none
    | _ => none

/-- `Parser._extract_track_number_and_time`: `re.search(r"^\s*(\d+)\s+", …)`
for the track number and `re.search(r"^\s*\d+\s+(\d+:\d+(?::\d+)?)\s+", …)`
for the start time.  This helper has no callers in the repository. -/
def _extract_track_number_and_time (text : List Char) : Option Int × Option String :=
  let rest0 := text.drop (leadCount isPyWS text)
  let d0 := leadCount isDigitC rest0
  let w0 := leadCount isPyWS (rest0.drop d0)
  (if d0 ≠ 0 ∧ w0 ≠ 0 then (parseNatChars (rest0.take d0)).map Int.ofNat else none,
   if d0 ≠ 0 ∧ w0 ≠ 0 then matchTimeThenWS ((rest0.drop d0).drop w0) else none)

/-! ## The strategy-selection loop of `Parser._extract_tracks_from_html` -/

/-- One iteration of the loop (parser.py lines 109-121): when no tracks have
been found yet, a strategy's results are filtered for `None` and, if any
candidate remains, extend the (empty) track list. -/
def selectStep (tracks : List DomainTrack)
    (pattern_tracks : List (Option DomainTrack)) : List DomainTrack :=
  if tracks = [] then
    if pattern_tracks ≠ [] then
      if pattern_tracks.filterMap id ≠ [] then tracks ++ pattern_tracks.filterMap id
      else tracks
    else tracks
  else tracks

/-- The candidate-selection part of `Parser._extract_tracks_from_html`,
abstracted over the raw outputs of the four strategies (in their fixed order:
tlpItem elements, track elements, tlp ID elements, text patterns). -/
def _extract_tracks_from_html_select
    (results : List (List (Option DomainTrack))) : List DomainTrack :=
  results.foldl selectStep []

/-- The claim's description of the selection: the first strategy whose
results contain at least one non-`None` candidate supplies all candidates. -/
def firstNonEmptyValid (results : List (List (Option DomainTrack))) : List DomainTrack :=
  match (results.map (fun r => r.filterMap id)).filter (fun v => !v.isEmpty) with
  | [] => []
  | v :: _ => v

/-- The raw text line of spec scenario 5. -/
def c8Line : String :=
  "01 02:30 Artist Name - Track Title [EDIT123] 3 userxyz (12k) Save 7"

/-! ## Decimal digit lemmas -/

theorem digitVal_digitChar {n : Nat} (h : n < 10) : digitVal (digitChar n) = n := by
  interval_cases n <;> decide

theorem isDigitC_digitChar (n : Nat) : isDigitC (digitChar n) = true := by
  match n with
  | 0 | 1 | 2 | 3 | 4 | 5 | 6 | 7 | 8 => decide
  | n + 9 => rfl

theorem natToCharsAux_digits (fuel : Nat) : ∀ n, n < fuel →
    (natToCharsAux fuel n).all isDigitC = true := by
  induction fuel with
  | zero => omega
  | succ fuel ih =>
    intro n hn
    unfold natToCharsAux
    split
    · simp [isDigitC_digitChar]
    next h10 =>
      have hdiv : n / 10 < fuel := by
        have : n / 10 < n := Nat.div_lt_self (by omega) (by omega)
        omega
      simp [List.all_append, ih _ hdiv, isDigitC_digitChar]

theorem natToCharsAux_ne_nil (fuel n : Nat) (h : n < fuel) :
    natToCharsAux fuel n ≠ [] := by
  cases fuel with
  | zero => omega
  | succ fuel =>
    unfold natToCharsAux
    split
    · simp
    · simp

theorem natToCharsAux_foldl (fuel : Nat) : ∀ n a, n < fuel →
    (natToCharsAux fuel n).foldl (fun a c => 10 * a + digitVal c) a
      = a * 10 ^ (natToCharsAux fuel n).length + n := by
  induction fuel with
  | zero => omega
  | succ fuel ih =>
    intro n a hn
    unfold natToCharsAux
    split
    next h10 =>
      simp [List.foldl, digitVal_digitChar h10]
      ring
    next h10 =>
      have hdiv : n / 10 < fuel := by
        have : n / 10 < n := Nat.div_lt_self (by omega) (by omega)
        omega
      rw [List.foldl_append, ih _ _ hdiv]
      have hmod : n % 10 < 10 := Nat.mod_lt _ (by omega)
      simp [List.foldl, digitVal_digitChar hmod]
      have hdm : 10 * (n / 10) + n % 10 = n := Nat.div_add_mod n 10
      have : 10 * (a * 10 ^ (natToCharsAux fuel (n / 10)).length + n / 10) + n % 10
          = a * (10 ^ (natToCharsAux fuel (n / 10)).length * 10)
            + (10 * (n / 10) + n % 10) := by ring
      rw [this, hdm, pow_succ]

theorem natToChars_digits (n : Nat) : (natToChars n).all isDigitC = true :=
  natToCharsAux_digits _ _ (Nat.lt_succ_self n)

theorem natToChars_ne_nil (n : Nat) : natToChars n ≠ [] :=
  natToCharsAux_ne_nil _ _ (Nat.lt_succ_self n)

theorem parseNatChars_natToChars (n : Nat) : parseNatChars (natToChars n) = some n := by
  unfold parseNatChars
  rw [if_pos ⟨natToChars_ne_nil n, natToChars_digits n⟩]
  unfold natToChars
  rw [natToCharsAux_foldl _ _ _ (Nat.lt_succ_self n)]
  simp

theorem parseNatChars_padZero2 {l : List Char} (h : l ≠ []) :
    parseNatChars (padZero2 l) = parseNatChars l := by
  unfold padZero2
  split
  · have hall : ('0' :: l).all isDigitC = l.all isDigitC := by
      rw [List.all_cons]
      rw [show isDigitC '0' = true from rfl]
      simp
    by_cases hd : l.all isDigitC = true
    · unfold parseNatChars
      rw [if_pos ⟨List.cons_ne_nil _ _, by rw [hall]; exact hd⟩, if_pos ⟨h, hd⟩]
      rw [List.foldl_cons]
      rw [show (10 * 0 + digitVal '0') = 0 from by decide]
    · unfold parseNatChars
      rw [if_neg, if_neg]
      · exact fun hc => hd hc.2
      · intro hc
        exact hd (by rw [← hall]; exact hc.2)
  · rfl

theorem parseIntAtom_neg_digits (l : List Char) :
    parseIntAtom ('-' :: l) = (parseNatChars l).map (fun n => -(Int.ofNat n)) := by
  unfold parseIntAtom
  rw [if_pos (show ('-' :: l).head? = some '-' from rfl)]
  rfl

theorem parseIntAtom_not_dash {l : List Char} (h : l.head? ≠ some '-') :
    parseIntAtom l = (parseNatChars l).map Int.ofNat := by
  unfold parseIntAtom
  rw [if_neg h]

theorem head_padZero2_natToChars_ne_dash (n : Nat) :
    (padZero2 (natToChars n)).head? ≠ some '-' := by
  unfold padZero2
  split
  · simp
  · obtain ⟨c, rest, hc⟩ : ∃ c rest, natToChars n = c :: rest := by
      cases hl : natToChars n with
      | nil => exact absurd hl (natToChars_ne_nil _)
      | cons c rest => exact ⟨c, rest, rfl⟩
    rw [hc]
    have hd : isDigitC c = true := by
      have := natToChars_digits n
      rw [hc, List.all_cons, Bool.and_eq_true] at this
      exact this.1
    simp only [List.head?_cons]
    intro hcontra
    rw [Option.some_inj] at hcontra
    rw [hcontra] at hd
    exact absurd hd (by decide)

theorem parseIntAtom_intPad2 (i : Int) : parseIntAtom (intPad2 i) = some i := by
  unfold intPad2
  split
  next hneg =>
    rw [parseIntAtom_neg_digits, parseNatChars_natToChars]
    simp only [Option.map_some', Option.some_inj]
    rw [Int.ofNat_eq_natCast]
    omega
  next hpos =>
    have hnn : 0 ≤ i := by omega
    rw [parseIntAtom_not_dash (head_padZero2_natToChars_ne_dash _),
        parseNatChars_padZero2 (natToChars_ne_nil _), parseNatChars_natToChars]
    simp only [Option.map_some', Option.some_inj]
    rw [Int.ofNat_eq_natCast]
    omega

theorem mem_intPad2_digit_or_dash {c : Char} {i : Int} (h : c ∈ intPad2 i) :
    isDigitC c = true ∨ c = '-' := by
  unfold intPad2 at h
  have hdig : ∀ n (c : Char), c ∈ natToChars n → isDigitC c = true := by
    intro n c hc
    have := natToChars_digits n
    rw [List.all_eq_true] at this
    exact this _ hc
  split at h
  · rcases List.mem_cons.mp h with h | h
    · exact Or.inr h
    · exact Or.inl (hdig _ _ h)
  · unfold padZero2 at h
    split at h
    · rcases List.mem_cons.mp h with h | h
      · subst h; exact Or.inl (by decide)
      · exact Or.inl (hdig _ _ h)
    · exact Or.inl (hdig _ _ h)

theorem dot_not_mem_intPad2 (i : Int) : '.' ∉ intPad2 i := by
  intro h
  rcases mem_intPad2_digit_or_dash h with h | h
  · exact absurd h (by decide)
  · exact absurd h (by decide)

theorem colon_not_mem_intPad2 (i : Int) : ':' ∉ intPad2 i := by
  intro h
  rcases mem_intPad2_digit_or_dash h with h | h
  · exact absurd h (by decide)
  · exact absurd h (by decide)

theorem intPad2_ne_nil (i : Int) : intPad2 i ≠ [] := by
  unfold intPad2
  split
  · simp
  · unfold padZero2
    split
    · simp
    · exact natToChars_ne_nil _

/-! ## `splitCh` lemmas -/

theorem splitCh_of_not_mem {sep : Char} : ∀ {l : List Char}, sep ∉ l →
    splitCh sep l = [l] := by
  intro l
  induction l with
  | nil => intro _; rfl
  | cons c rest ih =>
    intro h
    have hc : ¬ c = sep := fun hc => h (hc ▸ List.mem_cons_self c rest)
    have hrest : sep ∉ rest := fun hr => h (List.mem_cons_of_mem _ hr)
    unfold splitCh
    rw [if_neg hc, ih hrest]

theorem splitCh_ne_nil (sep : Char) : ∀ (l : List Char), splitCh sep l ≠ [] := by
  intro l
  induction l with
  | nil => simp [splitCh]
  | cons c rest ih =>
    unfold splitCh
    split
    · simp
    · cases h : splitCh sep rest with
      | nil => simp
      | cons a b => simp

theorem splitCh_append {sep : Char} : ∀ {l₁ : List Char} (l₂ : List Char), sep ∉ l₁ →
    splitCh sep (l₁ ++ sep :: l₂) = l₁ :: splitCh sep l₂ := by
  intro l₁
  induction l₁ with
  | nil =>
    intro l₂ _
    show splitCh sep (sep :: l₂) = [] :: splitCh sep l₂
    conv_lhs => unfold splitCh
    rw [if_pos rfl]
  | cons c rest ih =>
    intro l₂ h
    have hc : ¬ c = sep := fun hc => h (hc ▸ List.mem_cons_self c rest)
    have hrest : sep ∉ rest := fun hr => h (List.mem_cons_of_mem _ hr)
    show splitCh sep (c :: (rest ++ sep :: l₂)) = (c :: rest) :: splitCh sep l₂
    have hbody : splitCh sep (c :: (rest ++ sep :: l₂))
        = match splitCh sep (rest ++ sep :: l₂) with
          | [] => [[c]]
          | h :: t => (c :: h) :: t := by
      conv_lhs => unfold splitCh
      rw [if_neg hc]
    rw [hbody, ih l₂ hrest]

/-! ## The parse/format round trip -/

theorem parseTimeParts_three (hh mm ss : Int) :
    parseTimeParts (intPad2 hh ++ ':' :: (intPad2 mm ++ ':' :: intPad2 ss))
      = .ok ((hh * 3600 + mm * 60 + ss) * 1000000) := by
  unfold parseTimeParts
  rw [splitCh_append _ (colon_not_mem_intPad2 _),
      splitCh_append _ (colon_not_mem_intPad2 _),
      splitCh_of_not_mem (colon_not_mem_intPad2 _)]
  simp only [parsePartsInts, parseIntAtom_intPad2]

theorem parseTimeAux_intPad2_three (hh mm ss : Int) :
    parseTimeAux (intPad2 hh ++ ':' :: (intPad2 mm ++ ':' :: intPad2 ss))
      = .ok ((hh * 3600 + mm * 60 + ss) * 1000000) := by
  have hLne : intPad2 hh ++ ':' :: (intPad2 mm ++ ':' :: intPad2 ss) ≠ [] := by
    cases h : intPad2 hh with
    | nil => exact absurd h (intPad2_ne_nil _)
    | cons a b => simp
  have hdot : '.' ∉ intPad2 hh ++ ':' :: (intPad2 mm ++ ':' :: intPad2 ss) := by
    intro hmem
    rcases List.mem_append.mp hmem with h | h
    · exact dot_not_mem_intPad2 _ h
    · rcases List.mem_cons.mp h with h | h
      · exact absurd h (by decide)
      · rcases List.mem_append.mp h with h | h
        · exact dot_not_mem_intPad2 _ h
        · rcases List.mem_cons.mp h with h | h
          · exact absurd h (by decide)
          · exact dot_not_mem_intPad2 _ h
  unfold parseTimeAux
  rw [if_neg hLne, splitCh_of_not_mem hdot]
  simp only [List.headD_cons]
  exact parseTimeParts_three hh mm ss

theorem parseTimeAux_hms (ts : Int) :
    parseTimeAux (intPad2 (Int.fdiv ts 3600) ++
        ':' :: (intPad2 (Int.fdiv (Int.fmod ts 3600) 60) ++
          ':' :: intPad2 (Int.fmod (Int.fmod ts 3600) 60)))
      = .ok (ts * 1000000) := by
  set hh := Int.fdiv ts 3600 with hhh
  set r := Int.fmod ts 3600 with hr
  set mm := Int.fdiv r 60 with hmm
  set ss := Int.fmod r 60 with hss
  rw [parseTimeAux_intPad2_three]
  congr 1
  have e1 : 3600 * hh + r = ts := Int.fdiv_add_fmod ts 3600
  have e2 : 60 * mm + ss = r := Int.fdiv_add_fmod r 60
  have e3 : hh * 3600 + mm * 60 + ss = 3600 * hh + (60 * mm + ss) := by ring
  rw [e3, e2, e1]

/-- `format_time` followed by `parse_time` recovers the duration truncated to
whole seconds (`int(td.total_seconds())`). -/
theorem parse_time_format_time (v : Int) :
    parse_time (format_time v) = .ok (Int.tdiv v 1000000 * 1000000) := by
  simp only [parse_time, format_time]
  rw [List.append_assoc, List.cons_append]
  exact parseTimeAux_hms (Int.tdiv v 1000000)

/-- Every value `parse_time` produces is a whole number of seconds. -/
theorem parse_time_dvd {s : String} {v : Int} (h : parse_time s = .ok v) :
    ∃ k : Int, v = k * 1000000 := by
  unfold parse_time parseTimeAux at h
  split at h
  · exact absurd h (by simp)
  · unfold parseTimeParts at h
    split at h
    · exact absurd h (by simp)
    next m s _ => exact ⟨m * 60 + s, by injection h with h; omega⟩
    next hh m s _ => exact ⟨hh * 3600 + m * 60 + s, by injection h with h; omega⟩
    · exact absurd h (by simp)

/-- Reformatting a parsed time string parses back to the same value: the
normalisation pass of `apply_timing_rules` preserves all duration values. -/
theorem parse_time_reformat {s : String} {v : Int} (h : parse_time s = .ok v) :
    parse_time (format_time v) = .ok v := by
  obtain ⟨k, rfl⟩ := parse_time_dvd h
  rw [parse_time_format_time, Int.mul_tdiv_cancel _ (by norm_num)]

/-! ## The gapless-unless-overlap invariant (post-reconciliation) -/

/-- A successfully parsed time string is non-empty. -/
theorem parse_time_ok_ne_empty {s : String} {v : Int} (h : parse_time s = .ok v) :
    s ≠ "" := by
  intro hs
  subst hs
  rw [show parse_time "" = .error "Empty time string" from by decide] at h
  exact Except.noConfusion h

theorem parseTimeOpt_ok {o : Option String} {v : Int} (h : parseTimeOpt o = .ok v) :
    ∃ s, o = some s ∧ parse_time s = .ok v := by
  cases o with
  | none => exact absurd h (by simp [parseTimeOpt])
  | some s => exact ⟨s, rfl, h⟩

theorem parseTimeOpt_truthy {o : Option String} {v : Int} (h : parseTimeOpt o = .ok v) :
    optTruthy o = true := by
  obtain ⟨s, rfl, hp⟩ := parseTimeOpt_ok h
  simpa [optTruthy] using parse_time_ok_ne_empty hp


theorem fillEnd_start (t next : DomainTrack) :
    (fillEnd t next).start_time = t.start_time := by
  unfold fillEnd
  split <;> rfl

theorem fillEnd_end_of_falsy {t next : DomainTrack}
    (h : optTruthy (fillEnd t next).end_time = false) :
    (fillEnd t next).end_time = next.start_time := by
  unfold fillEnd at h ⊢
  by_cases ht : optTruthy t.end_time = true
  · rw [if_pos ht] at h
    rw [h] at ht
    exact absurd ht (by simp)
  · rw [if_neg ht]

/-- The invariant established by the `_process_gaps` loop: whenever the loop
succeeds, its output is non-empty, begins with (a modification of) the current
track carrying its `start_time`, and every adjacent pair satisfies `timesLE`. -/
theorem processGapsGo_chain (min_gap : Int) :
    ∀ (l : List DomainTrack) (t : DomainTrack) (out : List DomainTrack),
      processGapsGo min_gap t l = .ok out →
      ∃ h tl, out = h :: tl ∧ h.start_time = t.start_time ∧ List.Chain' timesLE out := by
  intro l
  induction l with
  | nil =>
    intro t out hok
    have : out = [t] := by
      have := hok
      unfold processGapsGo at this
      exact (Except.ok.injEq _ _).mp this.symm ▸ rfl
    subst this
    exact ⟨t, [], rfl, rfl, List.chain'_singleton t⟩
  | cons nxt rest ih =>
    intro t out hok
    unfold processGapsGo at hok
    split at hok
    · exact absurd hok (by simp)
    next start hstart =>
      split at hok
      · exact absurd hok (by simp)
      next e hend =>
        split at hok
        · exact absurd hok (by simp)
        next next_start hnext =>
          -- the filled end of the current track is present and parses to `e`
          obtain ⟨sstr, hnso, hnsp⟩ := parseTimeOpt_ok hnext
          have hfe : ∃ estr, (fillEnd t nxt).end_time = some estr ∧
              parse_time estr = .ok e := by
            by_cases htr : optTruthy (fillEnd t nxt).end_time = true
            · rw [if_pos htr] at hend
              exact parseTimeOpt_ok hend
            · have hfalse : optTruthy (fillEnd t nxt).end_time = false := by
                simpa using htr
              have := fillEnd_end_of_falsy hfalse
              rw [this, hnso] at hfalse
              have : optTruthy (some sstr) = true := by
                simpa [optTruthy] using parse_time_ok_ne_empty hnsp
              rw [this] at hfalse
              exact absurd hfalse (by simp)
          obtain ⟨estr, heo, hep⟩ := hfe
          split at hok
          next hlt =>
            -- overlap: boundaries untouched
            split at hok
            · exact absurd hok (by simp)
            next out₂ hrec =>
              obtain ⟨h₂, tl₂, rfl, hstart₂, hchain₂⟩ := ih nxt out₂ hrec
              have hout : out = fillEnd t nxt :: h₂ :: tl₂ := by
                injection hok with h
                exact h.symm
              subst hout
              refine ⟨_, _, rfl, fillEnd_start t nxt, ?_⟩
              rw [List.chain'_cons]
              refine ⟨⟨estr, sstr, e, next_start, heo, ?_, hep, hnsp, by omega⟩, hchain₂⟩
              rw [hstart₂, hnso]
          next hge =>
            split at hok
            next hbig =>
              -- long gap: synthetic ID track inserted
              split at hok
              · exact absurd hok (by simp)
              next out₂ hrec =>
                obtain ⟨h₂, tl₂, rfl, hstart₂, hchain₂⟩ := ih nxt out₂ hrec
                have hout : out = fillEnd t nxt :: mkGapId e next_start :: h₂ :: tl₂ := by
                  injection hok with h
                  exact h.symm
                subst hout
                refine ⟨_, _, rfl, fillEnd_start t nxt, ?_⟩
                rw [List.chain'_cons, List.chain'_cons]
                refine ⟨⟨estr, format_time e, e, e, heo, rfl, hep,
                          parse_time_reformat hep, le_refl e⟩,
                        ⟨format_time next_start, sstr, next_start, next_start, rfl, ?_,
                          parse_time_reformat hnsp, hnsp, le_refl next_start⟩,
                        hchain₂⟩
                rw [hstart₂, hnso]
            next hsmall =>
              split at hok
              next hmid =>
                -- short gap: both boundaries moved to the midpoint
                set midStr := format_time (e + Int.tdiv (next_start - e) 2) with hmids
                split at hok
                · exact absurd hok (by simp)
                next out₂ hrec =>
                  obtain ⟨h₂, tl₂, rfl, hstart₂, hchain₂⟩ :=
                    ih { nxt with start_time := some midStr } out₂ hrec
                  have hout : out = { fillEnd t nxt with end_time := some midStr }
                        :: h₂ :: tl₂ := by
                    injection hok with h
                    exact h.symm
                  subst hout
                  refine ⟨_, _, rfl, fillEnd_start t nxt, ?_⟩
                  rw [List.chain'_cons]
                  have hmidp : parse_time midStr
                      = .ok (Int.tdiv (e + Int.tdiv (next_start - e) 2) 1000000 * 1000000) := by
                    rw [hmids]
                    exact parse_time_format_time _
                  refine ⟨⟨midStr, midStr, _, _, rfl, ?_, hmidp, hmidp, le_refl _⟩, hchain₂⟩
                  rw [hstart₂]
              next hzero =>
                -- zero gap: shared boundary already
                split at hok
                · exact absurd hok (by simp)
                next out₂ hrec =>
                  obtain ⟨h₂, tl₂, rfl, hstart₂, hchain₂⟩ := ih nxt out₂ hrec
                  have hout : out = fillEnd t nxt :: h₂ :: tl₂ := by
                    injection hok with h
                    exact h.symm
                  subst hout
                  refine ⟨_, _, rfl, fillEnd_start t nxt, ?_⟩
                  rw [List.chain'_cons]
                  refine ⟨⟨estr, sstr, e, next_start, heo, ?_, hep, hnsp, by omega⟩, hchain₂⟩
                  rw [hstart₂, hnso]

/-- `timesLE` only looks at the predecessor's `end_time` and the successor's
`start_time`. -/
theorem timesLE_of_eq {a b a' b' : DomainTrack} (h : timesLE a b)
    (he : a'.end_time = a.end_time) (hs : b'.start_time = b.start_time) :
    timesLE a' b' := by
  obtain ⟨e, s, de, ds, hae, hbs, hpe, hps, hle⟩ := h
  exact ⟨e, s, de, ds, he ▸ hae, hs ▸ hbs, hpe, hps, hle⟩

theorem setLastEnd_cons_head (v : Option String) (x : DomainTrack) (xs : List DomainTrack) :
    ∃ y ys, setLastEnd v (x :: xs) = y :: ys ∧ y.start_time = x.start_time := by
  cases xs with
  | nil => exact ⟨{ x with end_time := v }, [], rfl, rfl⟩
  | cons b bs => exact ⟨x, setLastEnd v (b :: bs), rfl, rfl⟩

theorem chain_setLastEnd (v : Option String) :
    ∀ {l : List DomainTrack}, List.Chain' timesLE l →
      List.Chain' timesLE (setLastEnd v l) := by
  intro l
  induction l with
  | nil => intro _; exact List.chain'_nil
  | cons x xs ih =>
    intro hc
    cases xs with
    | nil => exact List.chain'_singleton _
    | cons b bs =>
      rw [List.chain'_cons] at hc
      obtain ⟨y, ys, hy, hys⟩ := setLastEnd_cons_head v b bs
      show List.Chain' timesLE (x :: setLastEnd v (b :: bs))
      rw [hy, List.chain'_cons]
      refine ⟨timesLE_of_eq hc.1 rfl hys, ?_⟩
      rw [← hy]
      exact ih hc.2

/-- `_add_outro_track` preserves the invariant: it only rewrites the last
track's `end_time`, or appends an outro ID track whose start coincides with
the last end. -/
theorem addOutro_chain {l : List DomainTrack} {total thr : Int}
    {out : List DomainTrack} (hc : List.Chain' timesLE l)
    (h : _add_outro_track l total thr = .ok out) : List.Chain' timesLE out := by
  unfold _add_outro_track at h
  split at h
  · injection h with h
    rw [← h]
    exact hc
  next last hlast =>
    split at h
    · injection h with h
      rw [← h]
      exact chain_setLastEnd _ hc
    next htruthy =>
      split at h
      · exact absurd h (by simp)
      next last_end hle =>
        obtain ⟨estr, heo, hep⟩ := parseTimeOpt_ok hle
        split at h
        · injection h with h
          rw [← h]
          exact hc
        · split at h
          · injection h with h
            rw [← h]
            exact chain_setLastEnd _ hc
          · injection h with h
            rw [← h]
            refine List.Chain'.append hc (List.chain'_singleton _) ?_
            intro x hx y hy
            rw [hlast, Option.mem_def, Option.some_inj] at hx
            simp only [List.head?_cons, Option.mem_def, Option.some_inj] at hy
            subst hx
            subst hy
            exact ⟨estr, format_time last_end, last_end, last_end, heo, rfl, hep,
                   parse_time_reformat hep, le_refl _⟩

/-- Renumbering touches only `track_number`, so it preserves the invariant. -/
theorem chain_renumberFrom :
    ∀ (l : List DomainTrack) (n : Int), List.Chain' timesLE l →
      List.Chain' timesLE (renumberFrom n l) := by
  intro l
  induction l with
  | nil => intro n _; exact List.chain'_nil
  | cons x xs ih =>
    intro n hc
    cases xs with
    | nil => exact List.chain'_singleton _
    | cons b bs =>
      rw [List.chain'_cons] at hc
      show List.Chain' timesLE
        ({ x with track_number := some n } :: renumberFrom (n + 1) (b :: bs))
      have hhead : renumberFrom (n + 1) (b :: bs)
          = { b with track_number := some (n + 1) } :: renumberFrom (n + 1 + 1) bs := rfl
      rw [hhead, List.chain'_cons]
      refine ⟨timesLE_of_eq hc.1 rfl rfl, ?_⟩
      rw [← hhead]
      exact ih (n + 1) hc.2

/-- Time values survive `normalizeTrack`: a parsed `start_time`/`end_time`
is replaced by its canonical rendering, which parses to the same value. -/
theorem normalizeTrack_spec {t t' : DomainTrack} (h : normalizeTrack t = .ok t') :
    (∀ s v, t.start_time = some s → parse_time s = .ok v →
       ∃ s', t'.start_time = some s' ∧ parse_time s' = .ok v) ∧
    (∀ e v, t.end_time = some e → parse_time e = .ok v →
       ∃ e', t'.end_time = some e' ∧ parse_time e' = .ok v) := by
  unfold normalizeTrack at h
  split at h
  · exact absurd h (by simp)
  next t₁ h₁ =>
    have hstage1 : t₁.end_time = t.end_time ∧
        (∀ s v, t.start_time = some s → parse_time s = .ok v →
          ∃ s', t₁.start_time = some s' ∧ parse_time s' = .ok v) := by
      by_cases hb : optTruthy t.start_time = true
      · rw [if_pos hb] at h₁
        split at h₁
        · exact absurd h₁ (by simp)
        next v₀ hv₀ =>
          injection h₁ with h₁
          rw [← h₁]
          refine ⟨rfl, ?_⟩
          intro s v hso hsp
          rw [hso] at hv₀
          rw [show parseTimeOpt (some s) = parse_time s from rfl, hsp] at hv₀
          injection hv₀ with hv₀
          subst hv₀
          exact ⟨format_time v, rfl, parse_time_reformat hsp⟩
      · rw [if_neg hb] at h₁
        injection h₁ with h₁
        rw [← h₁]
        refine ⟨rfl, ?_⟩
        intro s v hso hsp
        exact ⟨s, hso, hsp⟩
    have hstart1 : t₁.start_time = t₁.start_time := rfl
    by_cases hb2 : optTruthy t₁.end_time = true
    · rw [if_pos hb2] at h
      split at h
      · exact absurd h (by simp)
      next v₀ hv₀ =>
        injection h with h
        rw [← h]
        constructor
        · intro s v hso hsp
          exact hstage1.2 s v hso hsp
        · intro e v heo hep
          rw [hstage1.1, heo] at hv₀
          rw [show parseTimeOpt (some e) = parse_time e from rfl, hep] at hv₀
          injection hv₀ with hv₀
          subst hv₀
          exact ⟨format_time v, rfl, parse_time_reformat hep⟩
    · rw [if_neg hb2] at h
      injection h with h
      rw [← h]
      constructor
      · intro s v hso hsp
        exact hstage1.2 s v hso hsp
      · intro e v heo hep
        refine ⟨e, ?_, hep⟩
        rw [hstage1.1]
        exact heo

theorem normalizeTimes_chain :
    ∀ {l out : List DomainTrack}, List.Chain' timesLE l →
      normalizeTimes l = .ok out → List.Chain' timesLE out := by
  intro l
  induction l with
  | nil =>
    intro out _ h
    injection h with h
    rw [← h]
    exact List.chain'_nil
  | cons t rest ih =>
    intro out hc h
    unfold normalizeTimes at h
    split at h
    · exact absurd h (by simp)
    next t' ht' =>
      split at h
      · exact absurd h (by simp)
      next rest' hrest' =>
        injection h with h
        rw [← h]
        cases rest with
        | nil =>
          have : rest' = [] := by
            unfold normalizeTimes at hrest'
            injection hrest' with hrest'
            exact hrest'.symm
          rw [this]
          exact List.chain'_singleton _
        | cons b bs =>
          rw [List.chain'_cons] at hc
          have hshape : ∃ b' bs', rest' = b' :: bs' ∧ normalizeTrack b = .ok b' := by
            unfold normalizeTimes at hrest'
            split at hrest'
            · exact absurd hrest' (by simp)
            next b' hb' =>
              split at hrest'
              · exact absurd hrest' (by simp)
              next bs' hbs' =>
                injection hrest' with hrest'
                exact ⟨b', bs', hrest'.symm, hb'⟩
          obtain ⟨b', bs', hre, hb'⟩ := hshape
          rw [hre, List.chain'_cons]
          constructor
          · obtain ⟨e, s, de, ds, hte, hbs, hpe, hps, hle⟩ := hc.1
            obtain ⟨e', hte', hpe'⟩ := (normalizeTrack_spec ht').2 e de hte hpe
            obtain ⟨s', hbs', hps'⟩ := (normalizeTrack_spec hb').1 s ds hbs hps
            exact ⟨e', s', de, ds, hte', hbs', hpe', hps', hle⟩
          · rw [← hre]
            exact ih hc.2 hrest'

theorem process_gaps_chain {l : List DomainTrack} {min_gap : Int}
    {out : List DomainTrack} (h : _process_gaps l min_gap = .ok out) :
    List.Chain' timesLE out := by
  unfold _process_gaps at h
  split at h
  · injection h with h
    rw [← h]
    exact List.chain'_nil
  · obtain ⟨hh, tl, rfl, _, hch⟩ := processGapsGo_chain _ _ _ _ h
    exact hch

/-- **C1.** For every input on which `TimingUtils.apply_timing_rules` returns
a track list (in particular, every non-empty input whose `start_time` strings
all parse, when no other duration string is malformed) and every total
duration and thresholds, the returned list is gapless: for every adjacent
pair, the predecessor's `end_time` and the successor's `start_time` are
present, parse, and the successor starts no later than the predecessor ends —
the boundary is shared exactly except for detected overlaps, whose original
boundaries were left untouched. -/
theorem C1_apply_timing_rules_gapless (tracks : List DomainTrack)
    (total_duration intro_outro_threshold min_gap_threshold : Int)
    (out : List DomainTrack)
    (h : apply_timing_rules tracks total_duration
          intro_outro_threshold min_gap_threshold = .ok out) :
    List.Chain' timesLE out := by
  unfold apply_timing_rules at h
  split at h
  next hemp =>
    injection h with h
    rw [← h, hemp]
    exact List.chain'_nil
  · split at h
    · exact absurd h (by simp)
    next ts1 _ =>
      split at h
      · exact absurd h (by simp)
      next ts2 _ =>
        split at h
        · exact absurd h (by simp)
        next ts3 _ =>
          split at h
          · exact absurd h (by simp)
          next ts4 hgaps =>
            split at h
            · exact absurd h (by simp)
            next ts5 houtro =>
              exact normalizeTimes_chain
                (chain_renumberFrom _ 1 (addOutro_chain (process_gaps_chain hgaps) houtro)) h

/-- Witness for C1: a concrete run (two tracks, a filled end, an extended
outro) whose output satisfies the invariant. -/
theorem C1_witness :
    List.Chain' timesLE
      [{ name := "A", artist := "a", start_time := some "00:00:00",
         end_time := some "00:03:00", track_number := some 1 },
       { name := "B", artist := "b", start_time := some "00:03:00",
         end_time := some "00:05:00", track_number := some 2 }] :=
  C1_apply_timing_rules_gapless
    [{ name := "A", artist := "a", start_time := some "00:00:10" },
     { name := "B", artist := "b", start_time := some "00:03:00" }]
    (300 * 1000000) (30 * 1000000) (60 * 1000000) _ (by decide)

/-! ## C10: empty input -/

/-- **C10.** For every total duration and thresholds,
`apply_timing_rules` on an empty track list returns the empty list unchanged
and raises nothing, while `_add_intro_track`'s own empty-list branch would
evaluate `tracks[0]` and raise `IndexError` if it were reached directly. -/
theorem C10_empty_tracklist (total_duration intro_thr min_gap : Int) :
    apply_timing_rules [] total_duration intro_thr min_gap = .ok [] ∧
    _add_intro_track [] intro_thr = .error "list index out of range" :=
  ⟨rfl, rfl⟩

/-! ## C5: the two-track scenario -/

/-- **C5.** Scenario 1 of the specification: candidates
`("X","T1",start="00:00:30")` and `("Y","T2",start="00:05:00")` with
`total_duration = "00:10:00"` and default thresholds produce exactly
ID/ID `[00:00:00–00:00:30]`, T1 `[00:00:30–00:05:00]`,
T2 `[00:05:00–00:10:00]`, numbered 1, 2, 3. -/
theorem C5_scenario_intro_fill_outro :
    apply_timing_rules
      [{ name := "T1", artist := "X", start_time := some "00:00:30" },
       { name := "T2", artist := "Y", start_time := some "00:05:00" }]
      (600 * 1000000) =
    .ok [{ name := "ID", artist := "ID", start_time := some "00:00:00",
           end_time := some "00:00:30", track_number := some 1 },
         { name := "T1", artist := "X", start_time := some "00:00:30",
           end_time := some "00:05:00", track_number := some 2 },
         { name := "T2", artist := "Y", start_time := some "00:05:00",
           end_time := some "00:10:00", track_number := some 3 }] := by decide

/-! ## C3: the parse/format round-trip laws -/


theorem intPad2_natCast (n : Nat) : intPad2 (n : Int) = padZero2 (natToChars n) := by
  unfold intPad2
  rw [if_neg (by omega)]
  rw [Int.toNat_natCast]

/-- **C3.** For every non-negative whole-second duration `d`,
`parse_time (format_time d) = d`; and for every canonical zero-padded
`HH:MM:SS` string with minutes and seconds below 60,
`format_time (parse_time s) = s`. -/
theorem C3_roundtrip_parse_format :
    (∀ d : Int, 0 ≤ d → parse_time (format_time (d * 1000000)) = .ok (d * 1000000)) ∧
    (∀ H M S : Nat, H < 100 → M < 60 → S < 60 →
      (parse_time (canonicalHMS H M S)).map format_time = .ok (canonicalHMS H M S)) := by
  constructor
  · intro d _
    rw [parse_time_format_time, Int.mul_tdiv_cancel _ (by norm_num)]
  · intro H M S _hH hM hS
    have hparse : parse_time (canonicalHMS H M S)
        = .ok (((H : Int) * 3600 + (M : Int) * 60 + (S : Int)) * 1000000) := by
      show parseTimeAux (padZero2 (natToChars H) ++
        ':' :: (padZero2 (natToChars M) ++ ':' :: padZero2 (natToChars S))) = _
      rw [← intPad2_natCast H, ← intPad2_natCast M, ← intPad2_natCast S]
      exact parseTimeAux_intPad2_three _ _ _
    rw [hparse]
    show Except.ok (format_time _) = _
    congr 1
    simp only [format_time]
    rw [Int.mul_tdiv_cancel _ (by norm_num)]
    have h1 : Int.fdiv ((H : Int) * 3600 + (M : Int) * 60 + (S : Int)) 3600
        = (H : Int) := by
      rw [Int.fdiv_eq_ediv _ (by norm_num)]
      omega
    have h2 : Int.fmod ((H : Int) * 3600 + (M : Int) * 60 + (S : Int)) 3600
        = (M : Int) * 60 + (S : Int) := by
      rw [Int.fmod_eq_emod _ (by norm_num)]
      omega
    have h3 : Int.fdiv ((M : Int) * 60 + (S : Int)) 60 = (M : Int) := by
      rw [Int.fdiv_eq_ediv _ (by norm_num)]
      omega
    have h4 : Int.fmod ((M : Int) * 60 + (S : Int)) 60 = (S : Int) := by
      rw [Int.fmod_eq_emod _ (by norm_num)]
      omega
    rw [h1, h2, h3, h4, intPad2_natCast, intPad2_natCast, intPad2_natCast]
    unfold canonicalHMS
    congr 1
    rw [List.append_assoc, List.cons_append]

/-- Witness for C3 at concrete inputs. -/
theorem C3_witness :
    parse_time (format_time (90 * 1000000)) = .ok (90 * 1000000) ∧
    (parse_time (canonicalHMS 1 2 3)).map format_time = .ok (canonicalHMS 1 2 3) :=
  ⟨C3_roundtrip_parse_format.1 90 (by norm_num),
   C3_roundtrip_parse_format.2 1 2 3 (by norm_num) (by norm_num) (by norm_num)⟩

/-! ## C4: the shapes `parse_time` accepts, and its errors -/

theorem parsePartsInts_all_of_ok :
    ∀ {ps : List (List Char)} {vs : List Int}, parsePartsInts ps = .ok vs →
      (∀ p ∈ ps, (parseIntAtom p).isSome) ∧ vs.length = ps.length := by
  intro ps
  induction ps with
  | nil =>
    intro vs h
    injection h with h
    rw [← h]
    exact ⟨by simp, rfl⟩
  | cons p ps ih =>
    intro vs h
    unfold parsePartsInts at h
    split at h
    · exact absurd h (by simp)
    next v hv =>
      split at h
      · exact absurd h (by simp)
      next vs' hvs' =>
        injection h with h
        obtain ⟨hall, hlen⟩ := ih hvs'
        refine ⟨?_, ?_⟩
        · intro q hq
          rcases List.mem_cons.mp hq with hq | hq
          · rw [hq, hv]; rfl
          · exact hall q hq
        · rw [← h]
          simp [hlen]

theorem parsePartsInts_ok_of_all :
    ∀ {ps : List (List Char)}, (∀ p ∈ ps, (parseIntAtom p).isSome) →
      ∃ vs, parsePartsInts ps = .ok vs := by
  intro ps
  induction ps with
  | nil => intro _; exact ⟨[], rfl⟩
  | cons p ps ih =>
    intro hall
    have hp := hall p (List.mem_cons_self p ps)
    obtain ⟨v, hv⟩ := Option.isSome_iff_exists.mp hp
    obtain ⟨vs, hvs⟩ := ih (fun q hq => hall q (List.mem_cons_of_mem _ hq))
    refine ⟨v :: vs, ?_⟩
    unfold parsePartsInts
    rw [hv, hvs]

theorem parsePartsInts_error_shape :
    ∀ {ps : List (List Char)} {msg : String}, parsePartsInts ps = .error msg →
      ∃ p ∈ ps, parseIntAtom p = none ∧
        msg = "invalid literal for int() with base 10: " ++ String.mk p := by
  intro ps
  induction ps with
  | nil =>
    intro msg h
    exact absurd h (by simp [parsePartsInts])
  | cons p ps ih =>
    intro msg h
    unfold parsePartsInts at h
    split at h
    next hnone =>
      injection h with h
      exact ⟨p, List.mem_cons_self p ps, hnone, h.symm⟩
    next v hv =>
      split at h
      next hvs =>
        injection h with h
        obtain ⟨q, hq, hqn, hqm⟩ := ih (h ▸ hvs)
        exact ⟨q, List.mem_cons_of_mem _ hq, hqn, hqm⟩
      · exact absurd h (by simp)


theorem string_eq_empty_of_data_nil {s : String} (h : s.data = []) : s = "" := by
  cases s with
  | mk d =>
    cases h
    rfl

theorem string_ne_empty_of_data_ne_nil {s : String} (h : s.data ≠ []) : s ≠ "" :=
  fun hs => h (by rw [hs])

/-- **C4.** `parse_time` succeeds exactly on inputs with two or three
numeric colon-separated components (after truncating a fractional suffix at
the first dot), and on every other input it returns a structured error that
names the offending value — the empty-input message, the `int()` error
carrying the failing component, or the invalid-format error carrying the
truncated time string; it never silently returns a default duration. -/
theorem C4_parse_time_shape_and_errors (s : String) :
    ((∃ v, parse_time s = .ok v) ↔ timeShapeOk s) ∧
    ∀ msg, parse_time s = .error msg →
      msg = "Empty time string" ∨
      (∃ p ∈ splitCh ':' ((splitCh '.' s.data).headD []),
        parseIntAtom p = none ∧
        msg = "invalid literal for int() with base 10: " ++ String.mk p) ∨
      msg = "Invalid time format: " ++ String.mk ((splitCh '.' s.data).headD []) := by
  by_cases hemp : s.data = []
  · have hs : s = "" := string_eq_empty_of_data_nil hemp
    have hv : parse_time s = .error "Empty time string" := by
      rw [parse_time, parseTimeAux, if_pos hemp]
    constructor
    · constructor
      · rintro ⟨v, hv'⟩
        rw [hv] at hv'
        exact absurd hv' (by simp)
      · rintro ⟨hne, _⟩
        exact absurd hs hne
    · intro msg hmsg
      rw [hv] at hmsg
      injection hmsg with hmsg
      exact Or.inl hmsg.symm
  · have hpt : parse_time s = parseTimeParts ((splitCh '.' s.data).headD []) := by
      rw [parse_time, parseTimeAux, if_neg hemp]
    rcases hpp : parsePartsInts (splitCh ':' ((splitCh '.' s.data).headD [])) with msg₀ | vs
    · -- a component is rejected by int()
      have hv : parse_time s = .error msg₀ := by
        rw [hpt]
        unfold parseTimeParts
        rw [hpp]
      obtain ⟨p, hp, hpn, hpm⟩ := parsePartsInts_error_shape hpp
      constructor
      · constructor
        · rintro ⟨v, hv'⟩
          rw [hv] at hv'
          exact absurd hv' (by simp)
        · rintro ⟨_, _, hall⟩
          have := hall p hp
          rw [hpn] at this
          exact absurd this (by simp)
      · intro msg hmsg
        rw [hv] at hmsg
        injection hmsg with hmsg
        exact Or.inr (Or.inl ⟨p, hp, hpn, hmsg ▸ hpm⟩)
    · -- every component parses; dispatch on the number of components
      obtain ⟨hall, hlen⟩ := parsePartsInts_all_of_ok hpp
      match vs, hpp, hlen with
      | [m, s'], hpp, hlen =>
        have hv : parse_time s = .ok ((m * 60 + s') * 1000000) := by
          rw [hpt]
          unfold parseTimeParts
          rw [hpp]
        constructor
        · constructor
          · intro _
            exact ⟨string_ne_empty_of_data_ne_nil hemp, Or.inl hlen.symm, hall⟩
          · intro _
            exact ⟨_, hv⟩
        · intro msg hmsg
          rw [hv] at hmsg
          exact absurd hmsg (by simp)
      | [h, m, s'], hpp, hlen =>
        have hv : parse_time s = .ok ((h * 3600 + m * 60 + s') * 1000000) := by
          rw [hpt]
          unfold parseTimeParts
          rw [hpp]
        constructor
        · constructor
          · intro _
            exact ⟨string_ne_empty_of_data_ne_nil hemp, Or.inr hlen.symm, hall⟩
          · intro _
            exact ⟨_, hv⟩
        · intro msg hmsg
          rw [hv] at hmsg
          exact absurd hmsg (by simp)
      | [], hpp, hlen =>
        have hv : parse_time s
            = .error ("Invalid time format: "
                ++ String.mk ((splitCh '.' s.data).headD [])) := by
          rw [hpt]
          unfold parseTimeParts
          rw [hpp]
        refine ⟨⟨?_, ?_⟩, ?_⟩
        · rintro ⟨v, hv'⟩
          rw [hv] at hv'
          exact absurd hv' (by simp)
        · rintro ⟨_, hlens, _⟩
          simp only [List.length_nil] at hlen
          omega
        · intro msg hmsg
          rw [hv] at hmsg
          injection hmsg with hmsg
          exact Or.inr (Or.inr hmsg.symm)
      | [a], hpp, hlen =>
        have hv : parse_time s
            = .error ("Invalid time format: "
                ++ String.mk ((splitCh '.' s.data).headD [])) := by
          rw [hpt]
          unfold parseTimeParts
          rw [hpp]
        refine ⟨⟨?_, ?_⟩, ?_⟩
        · rintro ⟨v, hv'⟩
          rw [hv] at hv'
          exact absurd hv' (by simp)
        · rintro ⟨_, hlens, _⟩
          simp only [List.length_cons, List.length_nil] at hlen
          omega
        · intro msg hmsg
          rw [hv] at hmsg
          injection hmsg with hmsg
          exact Or.inr (Or.inr hmsg.symm)
      | a :: b :: c :: d :: rest, hpp, hlen =>
        have hv : parse_time s
            = .error ("Invalid time format: "
                ++ String.mk ((splitCh '.' s.data).headD [])) := by
          rw [hpt]
          unfold parseTimeParts
          rw [hpp]
        refine ⟨⟨?_, ?_⟩, ?_⟩
        · rintro ⟨v, hv'⟩
          rw [hv] at hv'
          exact absurd hv' (by simp)
        · rintro ⟨_, hlens, _⟩
          simp only [List.length_cons] at hlen
          omega
        · intro msg hmsg
          rw [hv] at hmsg
          injection hmsg with hmsg
          exact Or.inr (Or.inr hmsg.symm)

/-- Witness for C4: a well-shaped input is accepted, and a four-component
input produces the invalid-format error naming the offending value. -/
theorem C4_witness :
    timeShapeOk "12:34" ∧
    ("Invalid time format: 1:2:3:4" = "Empty time string" ∨
      (∃ p ∈ splitCh ':' ((splitCh '.' ("1:2:3:4" : String).data).headD []),
        parseIntAtom p = none ∧
        "Invalid time format: 1:2:3:4"
          = "invalid literal for int() with base 10: " ++ String.mk p) ∨
      "Invalid time format: 1:2:3:4"
        = "Invalid time format: "
            ++ String.mk ((splitCh '.' ("1:2:3:4" : String).data).headD [])) :=
  ⟨(C4_parse_time_shape_and_errors "12:34").1.mp ⟨754 * 1000000, by decide⟩,
   (C4_parse_time_shape_and_errors "1:2:3:4").2 _ (by decide)⟩

/-! ## C2: deduplication merges ranges -/


/-- **C2 (counterexample).** Two tracks whose keys agree only after
lowercasing do merge, but the surviving record keeps the first-listed track's
textual fields, so the merged result depends on the input order: with artists
`"A"` and `"a"` the two orders produce different tracks. -/
theorem C2_counterexample :
    trackKey { name := "t", artist := "A", start_time := some "00:00:10" }
      = trackKey { name := "t", artist := "a", start_time := some "00:00:20" } ∧
    _deduplicate_tracks
        [{ name := "t", artist := "A", start_time := some "00:00:10" },
         { name := "t", artist := "a", start_time := some "00:00:20" }]
      ≠ _deduplicate_tracks
        [{ name := "t", artist := "a", start_time := some "00:00:20" },
         { name := "t", artist := "A", start_time := some "00:00:10" }] := by decide

/-- **C2 (amended).** Two input tracks with equal `(artist, name)` keys after
lowercasing and stripping, with ranges `[a1, b1]` and `[a2, b2]` (a missing or
empty `end_time` counting as `end = start`), deduplicate — in either order —
to a single track spanning `[min(a1,a2), max(b1,b2)]`.  The merged timing
range is independent of the order; the surviving name/artist spelling and the
other fields are those of the first-listed track. -/
theorem C2_dedup_merges_ranges (t1 t2 : DomainTrack) (a1 b1 a2 b2 : Int)
    (hkey : trackKey t1 = trackKey t2)
    (h1s : parseTimeOpt t1.start_time = .ok a1)
    (h1e : (if optTruthy t1.end_time then parseTimeOpt t1.end_time else .ok a1) = .ok b1)
    (h2s : parseTimeOpt t2.start_time = .ok a2)
    (h2e : (if optTruthy t2.end_time then parseTimeOpt t2.end_time else .ok a2) = .ok b2) :
    _deduplicate_tracks [t1, t2] = .ok [withRange t1 (min a1 a2) (max b1 b2)] ∧
    _deduplicate_tracks [t2, t1] = .ok [withRange t2 (min a1 a2) (max b1 b2)] := by
  have hmerge12 : mergeDup t1 t2 = .ok (withRange t1 (min a1 a2) (max b1 b2)) := by
    unfold mergeDup withRange
    simp only [h1s, h1e, h2s, h2e]
  have hmerge21 : mergeDup t2 t1 = .ok (withRange t2 (min a1 a2) (max b1 b2)) := by
    unfold mergeDup withRange
    simp only [h2s, h2e, h1s, h1e]
    rw [min_comm a2 a1, max_comm b2 b1]
  constructor
  · show dedupGo [t1, t2] [] = _
    rw [show dedupGo [t1, t2] [] = dedupGo [t2] [t1] from by
      unfold dedupGo
      rw [if_neg (by simp)]
      rfl]
    unfold dedupGo
    rw [if_pos (by simp [hkey])]
    unfold mergeIntoAcc
    rw [if_pos hkey, hmerge12]
    rfl
  · show dedupGo [t2, t1] [] = _
    rw [show dedupGo [t2, t1] [] = dedupGo [t1] [t2] from by
      unfold dedupGo
      rw [if_neg (by simp)]
      rfl]
    unfold dedupGo
    rw [if_pos (by simp [hkey])]
    unfold mergeIntoAcc
    rw [if_pos hkey.symm, hmerge21]
    rfl

/-- Witness for C2 at a concrete pair: keys equal after case/space
normalisation, one missing end time. -/
theorem C2_witness :
    _deduplicate_tracks
        [{ name := "track", artist := "DJ", start_time := some "00:01:00",
           end_time := some "00:02:00" },
         { name := " TRACK ", artist := "dj", start_time := some "00:00:30" }]
      = .ok [withRange
              { name := "track", artist := "DJ", start_time := some "00:01:00",
                end_time := some "00:02:00" }
              (min (60 * 1000000) (30 * 1000000))
              (max (120 * 1000000) (30 * 1000000))] ∧
    _deduplicate_tracks
        [{ name := " TRACK ", artist := "dj", start_time := some "00:00:30" },
         { name := "track", artist := "DJ", start_time := some "00:01:00",
           end_time := some "00:02:00" }]
      = .ok [withRange
              { name := " TRACK ", artist := "dj", start_time := some "00:00:30" }
              (min (60 * 1000000) (30 * 1000000))
              (max (120 * 1000000) (30 * 1000000))] :=
  C2_dedup_merges_ranges
    { name := "track", artist := "DJ", start_time := some "00:01:00",
      end_time := some "00:02:00" }
    { name := " TRACK ", artist := "dj", start_time := some "00:00:30" }
    (60 * 1000000) (120 * 1000000) (30 * 1000000) (30 * 1000000)
    (by decide) (by decide) (by decide) (by decide) (by decide)


theorem foldl_selectStep_stable (rs : List (List (Option DomainTrack)))
    (acc : List DomainTrack) (h : acc ≠ []) : rs.foldl selectStep acc = acc := by
  induction rs with
  | nil => rfl
  | cons r rs ih =>
    rw [List.foldl_cons]
    have hs : selectStep acc r = acc := by simp only [selectStep, if_neg h]
    rw [hs]
    exact ih

/-- **C9.** The candidate set handed on by `_extract_tracks_from_html` comes
from exactly one extraction strategy: the strategies' result lists are folded
in their fixed order, and the first one containing at least one non-`None`
candidate supplies all candidates; later strategies are never merged in. -/
theorem C9_first_strategy_wins (results : List (List (Option DomainTrack))) :
    _extract_tracks_from_html_select results = firstNonEmptyValid results := by
  induction results with
  | nil => rfl
  | cons r rs ih =>
    have h1 : _extract_tracks_from_html_select (r :: rs) =
        List.foldl selectStep (selectStep [] r) rs := rfl
    by_cases hv : r.filterMap id = []
    · have hsel : selectStep [] r = [] := by
        simp [selectStep, hv]
      have h2 : firstNonEmptyValid (r :: rs) = firstNonEmptyValid rs := by
        simp only [firstNonEmptyValid, List.map_cons, List.filter_cons, hv,
          List.isEmpty_nil, Bool.not_true, Bool.false_eq_true, if_false]
      rw [h1, hsel, h2]
      exact ih
    · have hr : r ≠ [] := by
        intro h
        exact hv (by rw [h]; rfl)
      have hsel : selectStep [] r = r.filterMap id := by
        simp [selectStep, hr, hv]
      rw [h1, hsel, foldl_selectStep_stable rs _ hv]
      simp only [firstNonEmptyValid, List.map_cons, List.filter_cons]
      rw [show (!(r.filterMap id).isEmpty) = true by
        simp [List.isEmpty_iff, hv]]
      rfl

/-- **C8 (counterexample).** On the scenario-5 line, the free-text extraction
path of `TrackExtractors` emits artist `"Artist Name"` but name
`"Track Title [EDIT123]"` (the module-level cleaner skips the bracket
pattern), and both `track_number` and `start_time` are `none`, not `1` and
`"02:30"`. -/
theorem C8_counterexample :
    extract_from_text_patterns c8Line =
      [some { name := "Track Title [EDIT123]", artist := "Artist Name",
              start_time := none, end_time := none, track_number := none }] := by
  decide

/-- **C8 (amended).** On the scenario-5 line: the `TrackExtractors` free-text
path emits `("Track Title [EDIT123]", "Artist Name")`; the `Parser`-class
variant of the same scan (whose cleaner also strips a trailing bracket group)
emits `("Track Title", "Artist Name")`; in both, `track_number` and
`start_time` are `none`, because `Parser._extract_track_number_and_time` —
which on this line would return `(1, "02:30")` — has no callers in the
repository. -/
theorem C8_line_extraction :
    parser_extract_from_text_patterns c8Line =
      [some { name := "Track Title", artist := "Artist Name",
              start_time := none, end_time := none, track_number := none }] ∧
    _extract_track_number_and_time c8Line.data = (some 1, some "02:30") := by
  decide

/-! ## Idempotence of `clean_track_name` on newline-free input (claim C6)

On a newline-free string every `$`-anchored match has forced remainder `[]`,
so each `re.sub` pass deletes a suffix: its result is a `take` of its input.
Because the three patterns end in the catch-all `.*$`, a match inside any
contiguous substring of a newline-free string extends to a match of the full
suffix it sits in; hence "no match anywhere" transfers to substrings, and a
second cleaning pass finds nothing to remove. -/

theorem leadCount_le_length (p : Char → Bool) : ∀ l : List Char, leadCount p l ≤ l.length := by
  intro l
  induction l with
  | nil => exact Nat.le_refl 0
  | cons c rest ih =>
    rw [leadCount]
    split
    · exact Nat.succ_le_succ ih
    · exact Nat.zero_le _

theorem leadCount_eq_length_of_all (p : Char → Bool) :
    ∀ l : List Char, (∀ c ∈ l, p c = true) → leadCount p l = l.length := by
  intro l
  induction l with
  | nil => intro _; rfl
  | cons c rest ih =>
    intro h
    rw [leadCount, if_pos (h c (List.mem_cons_self c rest)), List.length_cons,
      ih (fun x hx => h x (List.mem_cons_of_mem c hx))]

theorem leadCount_le_append (p : Char → Bool) :
    ∀ (l ext : List Char), leadCount p l ≤ leadCount p (l ++ ext) := by
  intro l ext
  induction l with
  | nil => exact Nat.zero_le _
  | cons c rest ih =>
    rw [List.cons_append, leadCount, leadCount]
    split
    · exact Nat.succ_le_succ ih
    · exact Nat.le_refl 0

theorem mem_repOptions {p : Char → Bool} {min : Nat} {l r : List Char} :
    r ∈ repOptions p min l ↔ ∃ j, min ≤ j ∧ j ≤ leadCount p l ∧ r = l.drop j := by
  rw [repOptions]
  split
  · next hmin =>
    simp only [List.mem_map, List.mem_range]
    constructor
    · rintro ⟨i, hi, rfl⟩
      exact ⟨leadCount p l - i, by omega, by omega, rfl⟩
    · rintro ⟨j, hj1, hj2, rfl⟩
      refine ⟨leadCount p l - j, by omega, ?_⟩
      rw [show leadCount p l - (leadCount p l - j) = j by omega]
  · next hmin =>
    simp only [List.not_mem_nil, false_iff]
    rintro ⟨j, hj1, hj2, _⟩
    omega

theorem matchRE_dotC_ne_nil (l : List Char) (h : ∀ c ∈ l, c ≠ '\n') :
    matchRE [RAtom.rep dotC 0] l ≠ [] := by
  have hall : ∀ c ∈ l, dotC c = true := fun c hc => by simp [dotC, h c hc]
  refine List.ne_nil_of_mem (a := ([] : List Char)) ?_
  rw [matchRE]
  apply List.mem_flatMap.mpr
  refine ⟨[], ?_, ?_⟩
  · refine mem_repOptions.mpr ⟨l.length, Nat.zero_le _, ?_, (List.drop_length l).symm⟩
    exact Nat.le_of_eq (leadCount_eq_length_of_all dotC l hall).symm
  · rw [matchRE]
    simp

theorem matchRE_ne_nil_append (re : List RAtom) :
    ∀ (l ext : List Char), (∀ c ∈ l ++ ext, c ≠ '\n') →
      matchRE (re ++ [RAtom.rep dotC 0]) l ≠ [] →
      matchRE (re ++ [RAtom.rep dotC 0]) (l ++ ext) ≠ [] := by
  induction re with
  | nil =>
    intro l ext hnl _
    rw [List.nil_append]
    exact matchRE_dotC_ne_nil (l ++ ext) hnl
  | cons a re ih =>
    intro l ext hnl h
    cases a with
    | chr p =>
      cases l with
      | nil => exact absurd rfl h
      | cons c rest =>
        have hred : ∀ (l' : List Char),
            matchRE (RAtom.chr p :: (re ++ [RAtom.rep dotC 0])) (c :: l') =
              if p c then matchRE (re ++ [RAtom.rep dotC 0]) l' else [] :=
          fun _ => rfl
        rw [List.cons_append] at hnl ⊢
        rw [List.cons_append, hred (rest ++ ext)]
        rw [List.cons_append, hred rest] at h
        by_cases hp : p c
        · rw [if_pos hp] at h ⊢
          exact ih rest ext (fun x hx => hnl x (List.mem_cons_of_mem c hx)) h
        · rw [if_neg hp] at h
          exact absurd rfl h
    | rep p min =>
      have hred : ∀ (l' : List Char),
          matchRE (RAtom.rep p min :: (re ++ [RAtom.rep dotC 0])) l' =
            (repOptions p min l').flatMap (fun r => matchRE (re ++ [RAtom.rep dotC 0]) r) :=
        fun _ => rfl
      rw [List.cons_append, hred (l ++ ext)]
      rw [List.cons_append, hred l] at h
      have hex : ∃ r ∈ repOptions p min l, matchRE (re ++ [RAtom.rep dotC 0]) r ≠ [] := by
        by_contra hc
        push_neg at hc
        exact h (List.flatMap_eq_nil_iff.mpr hc)
      obtain ⟨r, hrmem, hrne⟩ := hex
      obtain ⟨j, hj1, hj2, rfl⟩ := mem_repOptions.mp hrmem
      have hjlen : j ≤ l.length := le_trans hj2 (leadCount_le_length p l)
      have hihnl : ∀ c ∈ l.drop j ++ ext, c ≠ '\n' := by
        intro c hc
        rcases List.mem_append.mp hc with h1 | h1
        · exact hnl c (List.mem_append.mpr (Or.inl (List.mem_of_mem_drop h1)))
        · exact hnl c (List.mem_append.mpr (Or.inr h1))
      have hih := ih (l.drop j) ext hihnl hrne
      obtain ⟨y, hy⟩ := List.exists_mem_of_ne_nil _ hih
      refine List.ne_nil_of_mem (a := y) ?_
      apply List.mem_flatMap.mpr
      refine ⟨(l ++ ext).drop j, ?_, ?_⟩
      · exact mem_repOptions.mpr ⟨j, hj1, le_trans hj2 (leadCount_le_append p l ext), rfl⟩
      · rw [List.drop_append_of_le_length hjlen]
        exact hy

theorem matchRE_rem_nil (re : List RAtom) :
    ∀ (l r : List Char), (∀ c ∈ l, c ≠ '\n') → r ∈ matchRE re l → r = [] := by
  induction re with
  | nil =>
    intro l r hnl hr
    rw [matchRE] at hr
    split at hr
    · next hor =>
      rw [List.mem_singleton] at hr
      subst hr
      rcases hor with h1 | h1
      · exact h1
      · exact absurd rfl (hnl '\n' (h1.symm ▸ List.mem_singleton_self '\n'))
    · exact absurd hr (List.not_mem_nil r)
  | cons a re ih =>
    intro l r hnl hr
    cases a with
    | chr p =>
      cases l with
      | nil => exact absurd hr (List.not_mem_nil r)
      | cons c rest =>
        have hred : matchRE (RAtom.chr p :: re) (c :: rest) =
            if p c then matchRE re rest else [] := rfl
        rw [hred] at hr
        split at hr
        · exact ih rest r (fun x hx => hnl x (List.mem_cons_of_mem c hx)) hr
        · exact absurd hr (List.not_mem_nil r)
    | rep p min =>
      have hred : matchRE (RAtom.rep p min :: re) l =
          (repOptions p min l).flatMap (fun x => matchRE re x) := rfl
      rw [hred] at hr
      obtain ⟨x, hxmem, hrx⟩ := List.mem_flatMap.mp hr
      obtain ⟨j, _, _, rfl⟩ := mem_repOptions.mp hxmem
      exact ih (l.drop j) r (fun c hc => hnl c (List.mem_of_mem_drop hc)) hrx

theorem reSubFuel_id (m : List Char → List (List Char)) :
    ∀ (fuel : Nat) (l : List Char), l.length ≤ fuel → (∀ i, m (l.drop i) = []) →
      reSubFuel m fuel l = l := by
  intro fuel
  induction fuel with
  | zero =>
    intro l hl _
    have hnil : l = [] := List.eq_nil_of_length_eq_zero (Nat.le_zero.mp hl)
    rw [hnil]
    rfl
  | succ f ih =>
    intro l hl hm
    cases l with
    | nil => rfl
    | cons c rest =>
      have h0 : m (c :: rest) = [] := hm 0
      simp only [reSubFuel, h0]
      show c :: reSubFuel m f rest = c :: rest
      rw [ih rest (Nat.le_of_succ_le_succ hl) (fun i => hm (i + 1))]

theorem reSub_id_of_noMatchAll (m : List Char → List (List Char)) (l : List Char)
    (h : ∀ i, m (l.drop i) = []) : reSub m l = l :=
  reSubFuel_id m l.length l (Nat.le_refl _) h

theorem reSubFuel_take (m : List Char → List (List Char))
    (hm : ∀ (l' r : List Char), (∀ c ∈ l', c ≠ '\n') → r ∈ m l' → r = []) :
    ∀ (fuel : Nat) (l : List Char), l.length ≤ fuel → (∀ c ∈ l, c ≠ '\n') →
      ∃ k, reSubFuel m fuel l = l.take k ∧ ∀ i, i < k → m (l.drop i) = [] := by
  intro fuel
  induction fuel with
  | zero =>
    intro l hl _
    have hnil : l = [] := List.eq_nil_of_length_eq_zero (Nat.le_zero.mp hl)
    subst hnil
    exact ⟨0, rfl, fun i hi => absurd hi (Nat.not_lt_zero i)⟩
  | succ f ih =>
    intro l hl hnl
    cases l with
    | nil => exact ⟨0, rfl, fun i hi => absurd hi (Nat.not_lt_zero i)⟩
    | cons c rest =>
      cases hh : (m (c :: rest)).head? with
      | none =>
        obtain ⟨k, hk, hno⟩ := ih rest (Nat.le_of_succ_le_succ hl)
          (fun x hx => hnl x (List.mem_cons_of_mem c hx))
        refine ⟨k + 1, ?_, ?_⟩
        · simp only [reSubFuel, hh]
          rw [hk, List.take_succ_cons]
        · intro i hi
          cases i with
          | zero => exact List.head?_eq_none_iff.mp hh
          | succ j => exact hno j (Nat.lt_of_succ_lt_succ hi)
      | some r =>
        have hrnil : r = [] := hm (c :: rest) r hnl (List.mem_of_mem_head? hh)
        subst hrnil
        refine ⟨0, ?_, fun i hi => absurd hi (Nat.not_lt_zero i)⟩
        simp only [reSubFuel, hh]
        rw [if_pos (by simp)]
        rfl

theorem reSub_take_noMatch (P : List RAtom) (hP : ∃ re, P = re ++ [RAtom.rep dotC 0])
    (h0 : matchRE P [] = []) (l : List Char) (hnl : ∀ c ∈ l, c ≠ '\n') :
    (∃ k, reSub (matchRE P) l = l.take k) ∧
      ∀ i, matchRE P ((reSub (matchRE P) l).drop i) = [] := by
  obtain ⟨k, hk, hno⟩ := reSubFuel_take (matchRE P)
    (fun l' r h hr => matchRE_rem_nil P l' r h hr) l.length l (Nat.le_refl _) hnl
  have hres : reSub (matchRE P) l = l.take k := hk
  refine ⟨⟨k, hres⟩, ?_⟩
  intro i
  rw [hres]
  by_cases hik : i < k
  · by_contra hne
    obtain ⟨re, rfl⟩ := hP
    rw [List.drop_take k i l] at hne
    have hext := matchRE_ne_nil_append re ((l.drop i).take (k - i)) ((l.drop i).drop (k - i))
      (fun c hc => by
        rw [List.take_append_drop] at hc
        exact hnl c (List.mem_of_mem_drop hc)) hne
    rw [List.take_append_drop] at hext
    exact hext (hno i hik)
  · rw [List.drop_eq_nil_iff.mpr (by rw [List.length_take]; omega)]
    exact h0

theorem noMatchAll_take_drop (P : List RAtom) (hP : ∃ re, P = re ++ [RAtom.rep dotC 0])
    (y : List Char) (hnl : ∀ c ∈ y, c ≠ '\n')
    (h : ∀ i, matchRE P (y.drop i) = []) (a b : Nat) :
    ∀ i, matchRE P (((y.drop a).take b).drop i) = [] := by
  intro i
  by_contra hne
  obtain ⟨re, rfl⟩ := hP
  rw [List.drop_take b i (y.drop a), List.drop_drop i a y] at hne
  have hext := matchRE_ne_nil_append re ((y.drop (a + i)).take (b - i))
    ((y.drop (a + i)).drop (b - i))
    (fun c hc => by
      rw [List.take_append_drop] at hc
      exact hnl c (List.mem_of_mem_drop hc)) hne
  rw [List.take_append_drop] at hext
  exact hext (h (a + i))

theorem dropWhile_eq_drop_leadCount (p : Char → Bool) :
    ∀ l : List Char, l.dropWhile p = l.drop (leadCount p l) := by
  intro l
  induction l with
  | nil => rfl
  | cons c rest ih =>
    rw [List.dropWhile_cons, leadCount]
    split
    · rw [List.drop_succ_cons]
      exact ih
    · rfl

theorem reverse_drop_reverse (l : List Char) (n : Nat) :
    (l.reverse.drop n).reverse = l.take (l.length - n) := by
  rw [List.reverse_drop]
  simp

theorem pyStrip_eq_take_dropWhile (l : List Char) :
    pyStrip l = (l.dropWhile isPyWS).take
      ((l.dropWhile isPyWS).length - leadCount isPyWS (l.dropWhile isPyWS).reverse) := by
  rw [pyStrip]
  conv_lhs => rw [dropWhile_eq_drop_leadCount isPyWS (l.dropWhile isPyWS).reverse]
  exact reverse_drop_reverse _ _

theorem pyStrip_drop_take (l : List Char) :
    ∃ a b, pyStrip l = (l.drop a).take b := by
  refine ⟨leadCount isPyWS l,
    (l.dropWhile isPyWS).length - leadCount isPyWS (l.dropWhile isPyWS).reverse, ?_⟩
  rw [pyStrip_eq_take_dropWhile, dropWhile_eq_drop_leadCount]

theorem head_dropWhile (p : Char → Bool) :
    ∀ (l : List Char) (c : Char), (l.dropWhile p).head? = some c → p c = false := by
  intro l
  induction l with
  | nil =>
    intro c h
    exact absurd h (by simp)
  | cons x rest ih =>
    intro c h
    rw [List.dropWhile_cons] at h
    split at h
    · exact ih c h
    · next hx =>
      injection h with h
      subst h
      exact Bool.eq_false_iff.mpr hx

theorem head?_take (d : List Char) (m : Nat) (h : d.take m ≠ []) :
    (d.take m).head? = d.head? := by
  cases d with
  | nil => simp at h
  | cons x rest =>
    cases m with
    | zero => exact absurd rfl h
    | succ k => rfl

theorem pyStrip_head_not_ws (l : List Char) (c : Char)
    (h : (pyStrip l).head? = some c) : isPyWS c = false := by
  rw [pyStrip_eq_take_dropWhile] at h
  have hne : (l.dropWhile isPyWS).take
      ((l.dropWhile isPyWS).length - leadCount isPyWS (l.dropWhile isPyWS).reverse) ≠ [] := by
    intro he
    rw [he] at h
    exact Option.noConfusion h
  rw [head?_take _ _ hne] at h
  exact head_dropWhile isPyWS l c h

theorem pyStrip_last_not_ws (l : List Char) (c : Char)
    (h : (pyStrip l).reverse.head? = some c) : isPyWS c = false := by
  have hrev : (pyStrip l).reverse = (l.dropWhile isPyWS).reverse.dropWhile isPyWS := by
    rw [pyStrip, List.reverse_reverse]
  rw [hrev] at h
  exact head_dropWhile isPyWS (l.dropWhile isPyWS).reverse c h

theorem pyStrip_idem (l : List Char) : pyStrip (pyStrip l) = pyStrip l := by
  cases hz : pyStrip l with
  | nil => rfl
  | cons c zs =>
    have hc : isPyWS c = false := pyStrip_head_not_ws l c (by rw [hz]; rfl)
    have hd : (c :: zs).dropWhile isPyWS = c :: zs :=
      List.dropWhile_cons_of_neg (by simp [hc])
    rw [pyStrip, hd]
    cases hr : (c :: zs).reverse with
    | nil => exact absurd hr (by simp)
    | cons c' rs =>
      have hc' : isPyWS c' = false := pyStrip_last_not_ws l c' (by rw [hz, hr]; rfl)
      rw [List.dropWhile_cons_of_neg (by simp [hc']), ← hr, List.reverse_reverse]

/-- **C6 (counterexample).** `clean_track_name` is not idempotent: on
`"B  CCCC 5 \n DD [e] f"` the interior newline blocks `label_and_numbers`
(whose `.*$` cannot cross it) on the first pass, while `edit_info` (whose
`\s+` spans the newline) removes the tail; the second pass then removes
`"  CCCC 5"`. -/
theorem C6_counterexample :
    clean_track_name (clean_track_name "B  CCCC 5 \n DD [e] f") ≠
      clean_track_name "B  CCCC 5 \n DD [e] f" := by
  decide

/-- **C6 (amended).** On every newline-free string, `clean_track_name` is
idempotent: each `$`-anchored pattern then deletes only a suffix, and the
catch-all tails make "no match anywhere" stable under taking substrings, so a
second pass removes nothing. -/
theorem C6_clean_track_name_idem (x : String) (h : '\n' ∉ x.data) :
    clean_track_name (clean_track_name x) = clean_track_name x := by
  have hnl : ∀ c ∈ x.data, c ≠ '\n' := fun c hc he => h (he ▸ hc)
  have hPL : ∃ re, label_and_numbers = re ++ [RAtom.rep dotC 0] :=
    ⟨[RAtom.rep isPyWS 1, RAtom.rep (fun c => isUpperC c || isPyWS c) 4,
      RAtom.rep isPyWS 1, RAtom.rep isDigitC 1], rfl⟩
  have hPE : ∃ re, edit_info = re ++ [RAtom.rep dotC 0] :=
    ⟨[RAtom.rep isPyWS 1, RAtom.rep isUpperC 1, RAtom.rep isPyWS 1,
      RAtom.chr (fun c => c = '['), RAtom.rep dotC 0, RAtom.chr (fun c => c = ']')], rfl⟩
  have hPU : ∃ re, user_info = re ++ [RAtom.rep dotC 0] :=
    ⟨[RAtom.rep isPyWS 1, RAtom.rep isDigitC 1, RAtom.rep isPyWS 1,
      RAtom.rep isUserInfoC 1, RAtom.rep isPyWS 1, RAtom.chr (fun c => c = 'S'),
      RAtom.chr (fun c => c = 'a'), RAtom.chr (fun c => c = 'v'),
      RAtom.chr (fun c => c = 'e')], rfl⟩
  obtain ⟨⟨k1, hk1⟩, hno1⟩ := reSub_take_noMatch label_and_numbers hPL rfl x.data hnl
  have hnl1 : ∀ c ∈ reSub (matchRE label_and_numbers) x.data, c ≠ '\n' := by
    rw [hk1]
    intro c hc
    exact hnl c (List.mem_of_mem_take hc)
  obtain ⟨⟨k2, hk2⟩, hno2⟩ := reSub_take_noMatch edit_info hPE rfl
    (reSub (matchRE label_and_numbers) x.data) hnl1
  have hnl2 : ∀ c ∈ reSub (matchRE edit_info) (reSub (matchRE label_and_numbers) x.data),
      c ≠ '\n' := by
    rw [hk2]
    intro c hc
    exact hnl1 c (List.mem_of_mem_take hc)
  obtain ⟨⟨k3, hk3⟩, hno3⟩ := reSub_take_noMatch user_info hPU rfl
    (reSub (matchRE edit_info) (reSub (matchRE label_and_numbers) x.data)) hnl2
  have hnl3 : ∀ c ∈ reSub (matchRE user_info)
      (reSub (matchRE edit_info) (reSub (matchRE label_and_numbers) x.data)), c ≠ '\n' := by
    rw [hk3]
    intro c hc
    exact hnl2 c (List.mem_of_mem_take hc)
  have hno1y2 : ∀ i, matchRE label_and_numbers
      ((reSub (matchRE edit_info) (reSub (matchRE label_and_numbers) x.data)).drop i) = [] := by
    rw [hk2]
    exact noMatchAll_take_drop label_and_numbers hPL
      (reSub (matchRE label_and_numbers) x.data) hnl1 hno1 0 k2
  have hno1y3 : ∀ i, matchRE label_and_numbers
      ((reSub (matchRE user_info) (reSub (matchRE edit_info)
        (reSub (matchRE label_and_numbers) x.data))).drop i) = [] := by
    rw [hk3]
    exact noMatchAll_take_drop label_and_numbers hPL
      (reSub (matchRE edit_info) (reSub (matchRE label_and_numbers) x.data)) hnl2 hno1y2 0 k3
  have hno2y3 : ∀ i, matchRE edit_info
      ((reSub (matchRE user_info) (reSub (matchRE edit_info)
        (reSub (matchRE label_and_numbers) x.data))).drop i) = [] := by
    rw [hk3]
    exact noMatchAll_take_drop edit_info hPE
      (reSub (matchRE edit_info) (reSub (matchRE label_and_numbers) x.data)) hnl2 hno2 0 k3
  obtain ⟨a, b, hzf⟩ := pyStrip_drop_take (reSub (matchRE user_info) (reSub (matchRE edit_info)
    (reSub (matchRE label_and_numbers) x.data)))
  have hno1z : ∀ i, matchRE label_and_numbers
      ((pyStrip (reSub (matchRE user_info) (reSub (matchRE edit_info)
        (reSub (matchRE label_and_numbers) x.data)))).drop i) = [] := by
    rw [hzf]
    exact noMatchAll_take_drop label_and_numbers hPL _ hnl3 hno1y3 a b
  have hno2z : ∀ i, matchRE edit_info
      ((pyStrip (reSub (matchRE user_info) (reSub (matchRE edit_info)
        (reSub (matchRE label_and_numbers) x.data)))).drop i) = [] := by
    rw [hzf]
    exact noMatchAll_take_drop edit_info hPE _ hnl3 hno2y3 a b
  have hno3z : ∀ i, matchRE user_info
      ((pyStrip (reSub (matchRE user_info) (reSub (matchRE edit_info)
        (reSub (matchRE label_and_numbers) x.data)))).drop i) = [] := by
    rw [hzf]
    exact noMatchAll_take_drop user_info hPU _ hnl3 hno3 a b
  have hidL := reSub_id_of_noMatchAll (matchRE label_and_numbers) _ hno1z
  have hidE := reSub_id_of_noMatchAll (matchRE edit_info) _ hno2z
  have hidU := reSub_id_of_noMatchAll (matchRE user_info) _ hno3z
  have hmkdata : ∀ l : List Char, (String.mk l).data = l := fun _ => rfl
  simp only [clean_track_name, hmkdata]
  rw [hidL, hidE, hidU, pyStrip_idem]

/-- Witness for C6: a concrete newline-free string on which the idempotence
theorem applies. -/
theorem C6_witness :
    '\n' ∉ ("  Foo BAR 12 baz ".data : List Char) ∧
    clean_track_name (clean_track_name "  Foo BAR 12 baz ") =
      clean_track_name "  Foo BAR 12 baz " :=
  ⟨by decide, C6_clean_track_name_idem "  Foo BAR 12 baz " (by decide)⟩

end WTI
